import Mathlib

/-!
A shallow embedding of the flx-rs fuzzy-matching scorer (src/search.rs).

Modelling conventions:
* Strings are lists of Unicode code points (`List Nat`), indexed by
  code-point position, mirroring Rust's `str.chars()` iteration.
* Rust `i32` scores are modelled as `Int`.  On every input a theorem
  relies on, the values computed stay inside `[-2^31, 2^31)`, where the
  `Int` model and `i32` agree.  The one reachable exception — the score
  accumulation on very long targets, whose exact value leaves that range
  so the Rust addition wraps (release) or panics (debug) — is recorded as
  a code bug, and the embedding is used there only up to the last value
  still inside the range and the first exact sum outside it (see the C9
  theorem).  The `f32::NEG_INFINITY as i32` sentinel of `find_best_match`
  is kept as its literal value `-2147483648`.
* Case mapping (`char::to_uppercase` / `char::to_lowercase`, first
  character of the mapping) is modelled on the ASCII range: an ASCII
  letter maps to its other case, every other code point maps to itself.
  This agrees with Rust on ASCII and on all caseless code points.
* Out-parameters (`&mut Vec`, `&mut HashMap`) are modelled as return
  values.  A Rust index-out-of-range or arithmetic-underflow panic is
  modelled as `none`; in-range updates use `setIdx` below.
* The `match_cache` of `find_best_match` is dropped: its `u32` keys
  `q_index + greater * query_length` injectively encode the
  `(q_index, greater_than)` call state whenever
  `query_length * target_length` fits in `u32` (`greater_than = None`
  occurs only at `q_index = 0`, where `greater = 0` is otherwise
  impossible), so within that range the cache is pure memoization and
  the cache-free recursion computes the same result lists.  Beyond that
  range the key arithmetic itself overflows — part of the same
  long-target breakdown recorded under C9.
* The `HashMap<Option<u32>, VecDeque<Option<u32>>>` position index is
  modelled as a total function `Nat → List Nat` (missing key ↦ `[]`,
  matching `HashMap::get` returning `None` and `bigger_sublist` then
  producing nothing).
-/

namespace Flx

/-- The seven separator characters of `WORD_SEPARATORS` (space - _ : . / \). -/
def WORD_SEPARATORS : List Nat := [32, 45, 95, 58, 46, 47, 92]

/-- `word`: a present character that is not a separator. -/
def word : Option Nat → Bool
  | none => false
  | some c => !(WORD_SEPARATORS.contains c)

/-- Valid Unicode scalar values, the domain of Rust `char::from_u32`. -/
def validCp (c : Nat) : Bool := c < 55296 || (57344 ≤ c && c ≤ 1114111)

/-- `char::from_u32`. -/
def fromU32 (c : Nat) : Option Nat := if validCp c then some c else none

/-- First character of `char::to_uppercase`, modelled on ASCII:
identity except for the lowercase ASCII letters. -/
def toUpperCp (c : Nat) : Nat := if 97 ≤ c ∧ c ≤ 122 then c - 32 else c

/-- First character of `char::to_lowercase`, modelled on ASCII:
identity except for the uppercase ASCII letters. -/
def toLowerCp (c : Nat) : Nat := if 65 ≤ c ∧ c ≤ 90 then c + 32 else c

/-- `is_uppercase`: the flx-compatible uppercase check,
`ch == ch.to_uppercase().next().unwrap()` (false for an absent char). -/
def is_uppercase : Option Nat → Bool
  | none => false
  | some ch => ch == toUpperCp ch

/-- `capital`: word character that is its own uppercase form
(via `char::from_u32`, i.e. only for valid scalar values). -/
def capital : Option Nat → Bool
  | none => false
  | some ch => word (some ch) && is_uppercase (fromU32 ch)

/-- `boundary`: start of string, non-capital→capital, or non-word→word. -/
def boundary (lastChar ch : Option Nat) : Bool :=
  if lastChar = none then true
  else if !capital lastChar && capital ch then true
  else if !word lastChar && word ch then true
  else false

/-- Add `d` to entry `i`; `none` models the Rust out-of-range panic. -/
def setIdx (l : List Int) (i : Nat) (d : Int) : Option (List Int) :=
  if h : i < l.length then some (l.set i (l.get ⟨i, h⟩ + d)) else none

/-- Loop body of `inc_vec`: add `inc` at `fuel` consecutive positions from `pos`. -/
def incVecGo (inc : Int) : List Int → Nat → Nat → Option (List Int)
  | l, _, 0 => some l
  | l, pos, fuel+1 =>
    match setIdx l pos inc with
    | none => none
    | some l2 => incVecGo inc l2 (pos+1) fuel

/-- `inc_vec(vec, inc, beg, end)`: add `inc` to entries `beg ≤ i < e`. -/
def inc_vec (l : List Int) (inc beg e : Int) : Option (List Int) :=
  if beg < e ∧ beg < 0 then none
  else incVecGo inc l beg.toNat (e - beg).toNat

/-- Prepend a position to the list stored at key `k` (VecDeque `push_front`). -/
def hashInsertFront (m : Nat → List Nat) (k p : Nat) : Nat → List Nat :=
  fun c => if c = k then p :: m c else m c

/-- Loop of `get_hash_for_string`, scanning positions `i-1, i-2, …, 0`
(the Rust loop runs from the last index down to 0, pushing to the front). -/
def getHashAux (s : List Nat) : Nat → (Nat → List Nat) → (Nat → List Nat)
  | 0, m => m
  | i+1, m =>
    let ch := s.getD i 0
    let m1 := if capital (some ch) then hashInsertFront m ch i else m
    let dn := if capital (some ch) then toLowerCp ch else ch
    getHashAux s i (hashInsertFront m1 dn i)

/-- `get_hash_for_string`: per-character ascending position lists. -/
def get_hash_for_string (s : List Nat) : Nat → List Nat :=
  getHashAux s s.length (fun _ => [])

/-- One group of the heatmap scan.  The Rust `Vec<i32>` encoding is
`[start, wc] ++ bounds` with new boundary positions inserted at index 2,
so `bounds` holds the word-boundary positions in decreasing order. -/
structure HGroup where
  start : Int
  wc : Int
  bounds : List Nat
deriving DecidableEq

/-- State of the left-to-right heatmap scan. -/
structure ScanSt where
  scores : List Int
  groups : List HGroup
  lastChar : Option Nat
  gwc : Int
deriving DecidableEq

/-- Update `group_alist[0]` (the scan only ever touches the head group). -/
def updHead (f : HGroup → HGroup) : List HGroup → List HGroup
  | [] => []
  | g :: gs => f g :: gs

/-- One iteration of the heatmap scan loop at position `index1` holding
character `ch` (mirrors the `for char in str.chars()` body). -/
def scanStep (gsep : Option Nat) (lastIdx : Nat) (st : ScanSt) (index1 ch : Nat) :
    Option ScanSt :=
  let effLast : Option Nat := if st.gwc = 0 then none else st.lastChar
  let groups1 :=
    if boundary effLast (some ch) then
      updHead (fun g => ⟨g.start, g.wc, index1 :: g.bounds⟩) st.groups
    else st.groups
  let gwc1 := if !word st.lastChar && word (some ch) then st.gwc + 1 else st.gwc
  match (if st.lastChar = some 46 then setIdx st.scores index1 (-45) else some st.scores) with
  | none => none
  | some scores1 =>
    let pr : List HGroup × Int :=
      if gsep = some ch then
        (⟨(index1 : Int), 0, []⟩ :: updHead (fun g => ⟨g.start, gwc1, g.bounds⟩) groups1, 0)
      else (groups1, gwc1)
    if index1 = lastIdx then
      some ⟨scores1, updHead (fun g => ⟨g.start, pr.2, g.bounds⟩) pr.1, st.lastChar, pr.2⟩
    else
      some ⟨scores1, pr.1, some ch, pr.2⟩

/-- The heatmap scan loop over the remaining characters, `index1` being the
position of the first of them. -/
def scanGo (gsep : Option Nat) (lastIdx : Nat) : List Nat → Nat → ScanSt → Option ScanSt
  | [], _, st => some st
  | ch :: chs, index1, st =>
    match scanStep gsep lastIdx st index1 ch with
    | none => none
    | some st1 => scanGo gsep lastIdx chs (index1+1) st1

/-- Initialisation plus scan of `get_heatmap_str`: baseline `-35` everywhere,
`+1` on the final position (out of range on the empty string: the Rust
`str_len - 1` underflow / out-of-range panic is the `none` of `setIdx`),
then the single left-to-right scan. -/
def heatmapScan (s : List Nat) (gsep : Option Nat) : Option ScanSt :=
  match setIdx (List.replicate s.length (-35)) (s.length - 1) 1 with
  | none => none
  | some sc0 => scanGo gsep (s.length - 1) s 0 ⟨sc0, [⟨-1, 0, []⟩], none, 0⟩

/-- Inner `while index3 < last_word` walk: char-order/word-order penalties. -/
def penaltyGo (wi : Int) : List Int → Nat → Int → Nat → Option (List Int)
  | sc, _, _, 0 => some sc
  | sc, pos, chI, fuel+1 =>
    match setIdx sc pos (-3 * wi - chI) with
    | none => none
    | some sc1 => penaltyGo wi sc1 (pos+1) (chI+1) fuel

/-- The walk from a word start `w` up to `lastWord`. -/
def penaltyWalk (sc : List Int) (w : Nat) (lastWord wi : Int) : Option (List Int) :=
  penaltyGo wi sc w 0 (lastWord - w).toNat

/-- `for word in cddr_group`: +85 at each word start, then the penalty walk;
`lastWord` becomes the word just processed and `wi` counts down. -/
def wordLoop : List Int → List Nat → Int → Int → Option (List Int)
  | sc, [], _, _ => some sc
  | sc, w :: ws, lastWord, wi =>
    match setIdx sc w 85 with
    | none => none
    | some sc1 =>
      match penaltyWalk sc1 w lastWord wi with
      | none => none
      | some sc2 => wordLoop sc2 ws (w : Int) (wi - 1)

/-- State of the per-group scoring loop of `get_heatmap_str`. -/
structure GSt where
  scores : List Int
  index2 : Int
  lastLimit : Option Int
  basepathFound : Bool
deriving DecidableEq

/-- Body of `for group in group_alist`. -/
def groupStep (n : Nat) (sepCount : Int) (st : GSt) (g : HGroup) : Option GSt :=
  let wordsLength := g.bounds.length
  let basepathP : Bool := (wordsLength != 0) && !st.basepathFound
  let num : Int :=
    if basepathP then
      35 + (if sepCount > 1 then sepCount - 1 else 0) + (-g.wc)
    else
      if st.index2 = 0 then -3 else -5 + (st.index2 - 1)
  let lim : Int := st.lastLimit.getD (n : Int)
  match inc_vec st.scores num (g.start + 1) lim with
  | none => none
  | some sc1 =>
    match wordLoop sc1 g.bounds lim ((wordsLength : Int) - 1) with
    | none => none
    | some sc2 => some ⟨sc2, st.index2 - 1, some (g.start + 1), st.basepathFound || basepathP⟩

/-- The per-group scoring loop. -/
def groupsGo (n : Nat) (sepCount : Int) : List HGroup → GSt → Option GSt
  | [], st => some st
  | g :: gsr, st =>
    match groupStep n sepCount st g with
    | none => none
    | some st1 => groupsGo n sepCount gsr st1

/-- `get_heatmap_str`: one signed score per target position.  `none` models
a Rust panic (reached on the empty target). -/
def get_heatmap_str (s : List Nat) (gsep : Option Nat) : Option (List Int) :=
  match heatmapScan s gsep with
  | none => none
  | some st =>
    let groupCount : Int := st.groups.length
    let sepCount : Int := groupCount - 1
    match (if sepCount ≠ 0 then inc_vec st.scores (groupCount * (-2)) 0 (s.length : Int)
           else some st.scores) with
    | none => none
    | some sc1 =>
      match groupsGo s.length sepCount st.groups ⟨sc1, sepCount, none, false⟩ with
      | none => none
      | some st2 => some st2.scores

/-- `bigger_sublist`: the positions of `sl` strictly greater than `val`
(the whole list when `val` is absent); order is preserved. -/
def bigger_sublist (sl : List Nat) (val : Option Nat) : List Nat :=
  match val with
  | none => sl
  | some v => sl.filter (fun p => decide (v < p))

/-- The `Result` struct: matched positions, cumulative score, and the
length of the current trailing contiguous run. -/
structure Result where
  indices : List Nat
  score : Int
  tail : Int
deriving DecidableEq

/-- Combined score when position `idx` is prepended to sub-result `elem`
(`+60` plus the capped `min(tail,3)*15` bonus when contiguous). -/
def fbmTemp (hm : List Int) (idx : Nat) (elem : Result) : Int :=
  if elem.indices.headD 0 = idx + 1 then
    elem.score + hm.getD idx 0 + min elem.tail 3 * 15 + 60
  else
    elem.score + hm.getD idx 0

/-- The `Result` pushed for position `idx` extending sub-result `elem`. -/
def fbmPush (hm : List Int) (idx : Nat) (elem : Result) : Result :=
  ⟨idx :: elem.indices, fbmTemp hm idx elem,
   if elem.indices.headD 0 = idx + 1 then elem.tail + 1 else 0⟩

/-- `for elem in elem_group`: keep only the best-scoring extension so far
(`imatch` is cleared and re-filled whenever a better score appears). -/
def fbmStep (hm : List Int) (idx : Nat) : List Result → Int × List Result → Int × List Result
  | [], acc => acc
  | elem :: es, acc =>
    let temp := fbmTemp hm idx elem
    if acc.1 < temp then fbmStep hm idx es (temp, [fbmPush hm idx elem])
    else fbmStep hm idx es acc

/-- `for index in indexes` of the recursive case: `f idx` is the list of
sub-results of the recursive call with threshold `idx`. -/
def fbmFold (hm : List Int) (f : Nat → List Result) :
    List Nat → Int × List Result → Int × List Result
  | [], acc => acc
  | idx :: is2, acc => fbmFold hm f is2 (fbmStep hm idx (f idx) acc)

/-- `find_best_match`, cache-free (see the header note): the argument list
is the remaining query suffix `query[q_index..]`. -/
def fbmGo (si : Nat → List Nat) (hm : List Int) : List Nat → (Option Nat → List Result)
  | [] => fun _ => []
  | c :: rest =>
    let sub := fbmGo si hm rest
    fun gt =>
      let idxs := bigger_sublist (si c) gt
      match rest with
      | [] => idxs.map (fun p => (⟨[p], hm.getD p 0, 0⟩ : Result))
      | _ :: _ => (fbmFold hm (fun idx => sub (some idx)) idxs (-2147483648, [])).2

/-- `find_best_match` at the top of the recursion. -/
def find_best_match (si : Nat → List Nat) (hm : List Int) (q : List Nat)
    (gt : Option Nat) : List Result :=
  fbmGo si hm q gt

/-- `score(str, query)`: the top-level scorer. -/
def score (s q : List Nat) : Option Result :=
  if s.isEmpty || q.isEmpty then none
  else
    let si := get_hash_for_string s
    match get_heatmap_str s none with
    | none => none
    | some hm =>
      let ql := q.length
      match fbmGo si hm q none with
      | [] => none
      | r :: _ =>
        if (1 < ql ∧ ql < 5) ∧ r.indices.length = s.length then
          some ⟨r.indices, r.score + 10000, r.tail⟩
        else some r

/-- The score `find_best_match` assigns to one fixed chain of positions:
the last position contributes its heatmap value with tail 0, and each
earlier position combines exactly as in `fbmTemp`/`fbmPush`.
Returns (score, tail). -/
def occScore (hm : List Int) : List Nat → Int × Int
  | [] => (0, 0)
  | [p] => (hm.getD p 0, 0)
  | p :: r1 :: rest =>
    let pr := occScore hm (r1 :: rest)
    if r1 = p + 1 then (pr.1 + hm.getD p 0 + min pr.2 3 * 15 + 60, pr.2 + 1)
    else (pr.1 + hm.getD p 0, 0)

/-- Query character `qc` may match target character `tc`: exactly, or via
lowercase folding of a capital target character. -/
def charMatch (qc tc : Nat) : Prop :=
  tc = qc ∨ (capital (some tc) = true ∧ toLowerCp tc = qc)

instance (qc tc : Nat) : Decidable (charMatch qc tc) :=
  inferInstanceAs (Decidable (tc = qc ∨ (capital (some tc) = true ∧ toLowerCp tc = qc)))

/-- `ps` is an in-order occurrence of query `q` inside target `s`. -/
def OccursAt (s q ps : List Nat) : Prop :=
  List.Chain' (· < ·) ps ∧
  List.Forall₂ (fun qc p => p < s.length ∧ charMatch qc (s.getD p 0)) q ps

/-- The query can be matched in order as a subsequence of the target
under the case rules. -/
def Matchable (s q : List Nat) : Prop := ∃ ps, OccursAt s q ps

/-- All consecutive position pairs adjacent. -/
def Contiguous (ps : List Nat) : Prop := List.Chain' (fun a b => b = a + 1) ps

/-- Strictly increasing with no adjacent pair (a scattered occurrence). -/
def Scattered (ps : List Nat) : Prop := List.Chain' (fun a b => a + 1 < b) ps

/-- The lowercase-normalised key under which a position is always recorded
(`down_char` of `get_hash_for_string`). -/
def downKey (s : List Nat) (p : Nat) : Nat :=
  if capital (some (s.getD p 0)) then toLowerCp (s.getD p 0) else s.getD p 0

/-- Well-formedness of a scan group for a target of length `n`. -/
def GroupWF (n : Nat) (g : HGroup) : Prop :=
  -1 ≤ g.start ∧ g.start < (n : Int) ∧ ∀ b ∈ g.bounds, b < n

/-- The head group exists and has at least one recorded word boundary. -/
def headBoundsNE : List HGroup → Prop
  | [] => False
  | g :: _ => g.bounds ≠ []

/-- The heatmap computation as `score` exercises it: no group separator,
hence a single group, no multi-group penalty, and only the basepath branch
(`num = 35 - word_count` with no separator boosts).  Written from the
spec's description of the score path, to be compared with
`get_heatmap_str s none`. -/
def get_heatmap_str_score_view (s : List Nat) : Option (List Int) :=
  match heatmapScan s none with
  | none => none
  | some st =>
    match st.groups with
    | [g] =>
      match inc_vec st.scores (35 + (-g.wc)) (g.start + 1) (s.length : Int) with
      | none => none
      | some sc1 =>
        match wordLoop sc1 g.bounds (s.length : Int) ((g.bounds.length : Int) - 1) with
        | none => none
        | some sc2 => some sc2
    | _ => none

/-- Total heatmap weight of a list of positions. -/
def heatSum (hm : List Int) (ps : List Nat) : Int :=
  (ps.map (fun p => hm.getD p 0)).sum

/-- Closed form of the heatmap entry at position `p` for the all-`'a'`
target of length `n` (no separators, one word starting at 0): `84` at the
word start, `1 - n` at the final position, `-1 - p` in between. -/
def heatAt (n p : Nat) : Int :=
  if p = 0 then 84 else if p = n - 1 then 1 - (n : Int) else -1 - (p : Int)

/-- Closed form of the unique viable sub-result score on the all-`'a'`
target of length `n`: `T n m` is the score of matching the last `m`
characters at positions `n-m … n-1` (the only strictly-increasing choice
the thresholds leave).  Each extension adds the heatmap value at the new
position plus the contiguity bonus `min tail 3 * 15 + 60`. -/
def T (n : Nat) : Nat → Int
  | 0 => 0
  | 1 => 1 - (n : Int)
  | m+2 => T n (m+1) + heatAt n (n - (m+2)) + min (m : Int) 3 * 15 + 60

/-! ### Position-index lemmas -/

theorem getHashAux_succ (s : List Nat) (i : Nat) (m : Nat → List Nat) :
    getHashAux s (i+1) m =
      getHashAux s i (hashInsertFront
        (if capital (some (s.getD i 0)) then hashInsertFront m (s.getD i 0) i else m)
        (downKey s i) i) := by
  rw [getHashAux, downKey]

theorem hashInsertFront_count (m : Nat → List Nat) (k q c p : Nat) :
    ((hashInsertFront m k q) c).count p =
      (m c).count p + (if c = k ∧ p = q then 1 else 0) := by
  unfold hashInsertFront
  by_cases hck : c = k
  · simp only [hck, if_pos rfl, List.count_cons]
    by_cases hpq : p = q <;> simp [hpq]
  · simp [hck]

theorem getHashAux_count (s : List Nat) :
    ∀ (i : Nat) (m : Nat → List Nat) (c p : Nat),
      (getHashAux s i m c).count p =
        (m c).count p
        + (if p < i ∧ capital (some (s.getD p 0)) = true ∧ c = s.getD p 0 then 1 else 0)
        + (if p < i ∧ c = downKey s p then 1 else 0) := by
  intro i
  induction i with
  | zero => intro m c p; simp [getHashAux]
  | succ i ih =>
    intro m c p
    rw [getHashAux_succ, ih, hashInsertFront_count]
    have hm1 : ((if capital (some (s.getD i 0)) then hashInsertFront m (s.getD i 0) i
        else m) c).count p
        = (m c).count p
          + (if capital (some (s.getD i 0)) = true ∧ c = s.getD i 0 ∧ p = i then 1 else 0) := by
      by_cases hcap : capital (some (s.getD i 0)) = true
      · rw [if_pos hcap, hashInsertFront_count]
        split_ifs with h1 h2 <;> first | rfl | (exfalso; tauto)
      · rw [if_neg hcap]
        split_ifs with h1 <;> first | omega | (exfalso; exact hcap h1.1)
    rw [hm1]
    by_cases hpi : p = i
    · subst hpi
      split_ifs <;> first | omega | simp_all
    · have h1 : (p < i + 1) ↔ p < i := by omega
      simp only [h1]
      clear ih hm1
      split_ifs <;> omega

theorem get_hash_for_string_count (s : List Nat) (c p : Nat) :
    (get_hash_for_string s c).count p =
      (if p < s.length ∧ capital (some (s.getD p 0)) = true ∧ c = s.getD p 0 then 1 else 0)
      + (if p < s.length ∧ c = downKey s p then 1 else 0) := by
  unfold get_hash_for_string
  rw [getHashAux_count]
  simp

theorem mem_get_hash_for_string (s : List Nat) (c p : Nat)
    (h : p ∈ get_hash_for_string s c) : p < s.length ∧ charMatch c (s.getD p 0) := by
  have hc : 0 < (get_hash_for_string s c).count p := List.count_pos_iff.2 h
  rw [get_hash_for_string_count] at hc
  by_cases h1 : p < s.length ∧ capital (some (s.getD p 0)) = true ∧ c = s.getD p 0
  · exact ⟨h1.1, Or.inl h1.2.2.symm⟩
  · simp only [h1, if_false, zero_add] at hc
    by_cases h2 : p < s.length ∧ c = downKey s p
    · refine ⟨h2.1, ?_⟩
      unfold downKey at h2
      by_cases hcap : capital (some (s.getD p 0)) = true
      · right
        refine ⟨hcap, ?_⟩
        have := h2.2
        rw [if_pos hcap] at this
        exact this.symm
      · left
        have := h2.2
        rw [if_neg hcap] at this
        exact this.symm
    · simp [h2] at hc

theorem chainLe_cons_of_lb {i : Nat} {l : List Nat} (hch : List.Chain' (· ≤ ·) l)
    (hlb : ∀ x ∈ l, i ≤ x) : List.Chain' (· ≤ ·) (i :: l) :=
  List.chain'_cons'.2 ⟨fun y hy => hlb y (List.mem_of_mem_head? hy), hch⟩

theorem hashInsertFront_eq_or (m : Nat → List Nat) (k p c : Nat) :
    (hashInsertFront m k p) c = m c ∨ (hashInsertFront m k p) c = p :: m c := by
  unfold hashInsertFront
  by_cases h : c = k <;> simp [h]

theorem getHashAux_sorted (s : List Nat) :
    ∀ (i : Nat) (m : Nat → List Nat),
      (∀ c, List.Chain' (· ≤ ·) (m c) ∧ ∀ x ∈ m c, i ≤ x) →
      ∀ c, List.Chain' (· ≤ ·) (getHashAux s i m c) := by
  intro i
  induction i with
  | zero =>
    intro m h c
    simpa [getHashAux] using (h c).1
  | succ i ih =>
    intro m h c
    rw [getHashAux_succ]
    apply ih
    intro c2
    have hbase := h c2
    have hstep : ∀ l : List Nat,
        (List.Chain' (· ≤ ·) l ∧ ∀ x ∈ l, i + 1 ≤ x) →
        (List.Chain' (· ≤ ·) (i :: l) ∧ ∀ x ∈ i :: l, i ≤ x) := by
      intro l hl
      refine ⟨chainLe_cons_of_lb hl.1 (fun x hx => le_of_lt (hl.2 x hx)), ?_⟩
      intro x hx
      rcases List.mem_cons.1 hx with h1 | h1
      · exact le_of_eq h1.symm
      · exact le_of_lt (hl.2 x h1)
    have hm1 : List.Chain' (· ≤ ·)
        ((if capital (some (s.getD i 0)) then hashInsertFront m (s.getD i 0) i else m) c2)
        ∧ ∀ x ∈ ((if capital (some (s.getD i 0)) then hashInsertFront m (s.getD i 0) i
            else m) c2), i ≤ x := by
      by_cases hcap : capital (some (s.getD i 0)) = true
      · rw [if_pos hcap]
        rcases hashInsertFront_eq_or m (s.getD i 0) i c2 with he | he <;> rw [he]
        · exact ⟨hbase.1, fun x hx => le_of_lt (hbase.2 x hx)⟩
        · exact hstep _ hbase
      · rw [if_neg hcap]
        exact ⟨hbase.1, fun x hx => le_of_lt (hbase.2 x hx)⟩
    rcases hashInsertFront_eq_or
        (if capital (some (s.getD i 0)) then hashInsertFront m (s.getD i 0) i else m)
        (downKey s i) i c2 with he | he <;> rw [he]
    · exact hm1
    · refine ⟨chainLe_cons_of_lb hm1.1 hm1.2, ?_⟩
      intro x hx
      rcases List.mem_cons.1 hx with h1 | h1
      · exact le_of_eq h1.symm
      · exact hm1.2 x h1

theorem get_hash_for_string_sorted (s : List Nat) (c : Nat) :
    List.Chain' (· ≤ ·) (get_hash_for_string s c) := by
  unfold get_hash_for_string
  apply getHashAux_sorted
  intro c2
  exact ⟨List.chain'_nil, by intro x hx; cases hx⟩

/-! ### Search lemmas -/

theorem bigger_sublist_mem_some (sl : List Nat) (v p : Nat) :
    p ∈ bigger_sublist sl (some v) ↔ p ∈ sl ∧ v < p := by
  unfold bigger_sublist
  simp [List.mem_filter]

theorem fbmGo_nil (si : Nat → List Nat) (hm : List Int) (gt : Option Nat) :
    fbmGo si hm [] gt = [] := rfl

theorem fbmGo_single (si : Nat → List Nat) (hm : List Int) (c : Nat) (gt : Option Nat) :
    fbmGo si hm [c] gt
      = (bigger_sublist (si c) gt).map (fun p => (⟨[p], hm.getD p 0, 0⟩ : Result)) := rfl

theorem fbmGo_cons₂ (si : Nat → List Nat) (hm : List Int) (c d : Nat) (rest : List Nat)
    (gt : Option Nat) :
    fbmGo si hm (c :: d :: rest) gt
      = (fbmFold hm (fun idx => fbmGo si hm (d :: rest) (some idx))
          (bigger_sublist (si c) gt) (-2147483648, [])).2 := rfl

theorem fbmPush_indices (hm : List Int) (idx : Nat) (elem : Result) :
    (fbmPush hm idx elem).indices = idx :: elem.indices := rfl

theorem fbmStep_mem (hm : List Int) (idx : Nat) :
    ∀ (es : List Result) (acc : Int × List Result) (r : Result),
      r ∈ (fbmStep hm idx es acc).2 →
      r ∈ acc.2 ∨ ∃ elem ∈ es, r = fbmPush hm idx elem := by
  intro es
  induction es with
  | nil => intro acc r h; exact Or.inl h
  | cons elem es ih =>
    intro acc r h
    rw [fbmStep] at h
    by_cases hc : acc.1 < fbmTemp hm idx elem
    · rw [if_pos hc] at h
      rcases ih _ r h with h1 | h1
      · right
        refine ⟨elem, List.mem_cons_self _ _, ?_⟩
        simpa using h1
      · rcases h1 with ⟨e2, he2, hr⟩
        exact Or.inr ⟨e2, List.mem_cons_of_mem _ he2, hr⟩
    · rw [if_neg hc] at h
      rcases ih _ r h with h1 | h1
      · exact Or.inl h1
      · rcases h1 with ⟨e2, he2, hr⟩
        exact Or.inr ⟨e2, List.mem_cons_of_mem _ he2, hr⟩

theorem fbmFold_mem (hm : List Int) (f : Nat → List Result) :
    ∀ (idxs : List Nat) (acc : Int × List Result) (r : Result),
      r ∈ (fbmFold hm f idxs acc).2 →
      r ∈ acc.2 ∨ ∃ idx ∈ idxs, ∃ elem ∈ f idx, r = fbmPush hm idx elem := by
  intro idxs
  induction idxs with
  | nil => intro acc r h; exact Or.inl h
  | cons idx idxs ih =>
    intro acc r h
    rw [fbmFold] at h
    rcases ih _ r h with h1 | h1
    · rcases fbmStep_mem hm idx _ _ r h1 with h2 | h2
      · exact Or.inl h2
      · rcases h2 with ⟨e2, he2, hr⟩
        exact Or.inr ⟨idx, List.mem_cons_self _ _, e2, he2, hr⟩
    · rcases h1 with ⟨idx2, hidx2, e2, he2, hr⟩
      exact Or.inr ⟨idx2, List.mem_cons_of_mem _ hidx2, e2, he2, hr⟩

theorem forall₂_mem_right {R : Nat → Nat → Prop} :
    ∀ {l1 l2 : List Nat}, List.Forall₂ R l1 l2 → ∀ b ∈ l2, ∃ a ∈ l1, R a b := by
  intro l1 l2 h
  induction h with
  | nil => intro b hb; cases hb
  | cons hab _ ih =>
    intro b hb
    rcases List.mem_cons.1 hb with h1 | h1
    · subst h1; exact ⟨_, List.mem_cons_self _ _, hab⟩
    · rcases ih b h1 with ⟨a, ha, hr⟩
      exact ⟨a, List.mem_cons_of_mem _ ha, hr⟩

theorem forall₂_getD {R : Nat → Nat → Prop} :
    ∀ {l1 l2 : List Nat}, List.Forall₂ R l1 l2 → ∀ i, i < l1.length →
      R (l1.getD i 0) (l2.getD i 0) := by
  intro l1 l2 h
  induction h with
  | nil => intro i hi; cases hi
  | cons hab htl ih =>
    intro i hi
    cases i with
    | zero => simpa using hab
    | succ i =>
      have := ih i (by simpa using Nat.lt_of_succ_lt_succ hi)
      simpa using this

/-- Master invariant of the recursive search: every returned `Result` pairs
the query suffix with positions drawn from the position index, strictly
increasing, all above the threshold. -/
theorem fbmGo_spec (si : Nat → List Nat) (hm : List Int) :
    ∀ (q : List Nat) (gt : Option Nat) (r : Result), r ∈ fbmGo si hm q gt →
      List.Forall₂ (fun c p => p ∈ si c) q r.indices
      ∧ r.indices.Chain' (· < ·)
      ∧ (∀ v, gt = some v → ∀ p ∈ r.indices.head?, v < p) := by
  intro q
  induction q with
  | nil =>
    intro gt r h
    rw [fbmGo_nil] at h
    cases h
  | cons c rest ih =>
    intro gt r h
    cases rest with
    | nil =>
      rw [fbmGo_single] at h
      rcases List.mem_map.1 h with ⟨p, hp, hr⟩
      subst hr
      have hpsi : p ∈ si c ∧ ∀ v, gt = some v → v < p := by
        cases gt with
        | none => exact ⟨hp, fun v hv => by cases hv⟩
        | some v =>
          rcases (bigger_sublist_mem_some (si c) v p).1 hp with ⟨h1, h2⟩
          exact ⟨h1, fun v2 hv2 => by cases hv2; exact h2⟩
      refine ⟨List.Forall₂.cons hpsi.1 List.Forall₂.nil, ?_, ?_⟩
      · simp
      · intro v hv p2 hp2
        simp only [List.head?] at hp2
        cases hp2
        exact hpsi.2 v hv
    | cons d rest2 =>
      rw [fbmGo_cons₂] at h
      rcases fbmFold_mem hm _ _ _ r h with h1 | h1
      · cases h1
      · rcases h1 with ⟨idx, hidx, elem, helem, hr⟩
        subst hr
        have hsub := ih (some idx) elem helem
        have hidx2 : idx ∈ si c ∧ ∀ v, gt = some v → v < idx := by
          cases gt with
          | none => exact ⟨hidx, fun v hv => by cases hv⟩
          | some v =>
            rcases (bigger_sublist_mem_some (si c) v idx).1 hidx with ⟨h1, h2⟩
            exact ⟨h1, fun v2 hv2 => by cases hv2; exact h2⟩
        refine ⟨?_, ?_, ?_⟩
        · rw [fbmPush_indices]
          exact List.Forall₂.cons hidx2.1 hsub.1
        · rw [fbmPush_indices]
          exact List.chain'_cons'.2 ⟨hsub.2.2 idx rfl, hsub.2.1⟩
        · intro v hv p2 hp2
          rw [fbmPush_indices] at hp2
          simp only [List.head?] at hp2
          cases hp2
          exact hidx2.2 v hv

theorem fbmStep_len_le (hm : List Int) (idx : Nat) :
    ∀ (es : List Result) (acc : Int × List Result),
      acc.2.length ≤ 1 → (fbmStep hm idx es acc).2.length ≤ 1 := by
  intro es
  induction es with
  | nil => intro acc h; exact h
  | cons elem es ih =>
    intro acc h
    rw [fbmStep]
    by_cases hc : acc.1 < fbmTemp hm idx elem
    · rw [if_pos hc]
      exact ih _ (by simp)
    · rw [if_neg hc]
      exact ih _ h

theorem fbmFold_len_le (hm : List Int) (f : Nat → List Result) :
    ∀ (idxs : List Nat) (acc : Int × List Result),
      acc.2.length ≤ 1 → (fbmFold hm f idxs acc).2.length ≤ 1 := by
  intro idxs
  induction idxs with
  | nil => intro acc h; exact h
  | cons idx idxs ih =>
    intro acc h
    rw [fbmFold]
    exact ih _ (fbmStep_len_le hm idx _ _ h)

/-- In the recursive case (query of length at least 2) the search returns at
most one `Result` (greedy top-1 pruning). -/
theorem fbmGo_len_le (si : Nat → List Nat) (hm : List Int) (c d : Nat) (rest : List Nat)
    (gt : Option Nat) : (fbmGo si hm (c :: d :: rest) gt).length ≤ 1 := by
  rw [fbmGo_cons₂]
  exact fbmFold_len_le hm _ _ _ (by simp)

/-- Inversion of a successful `score` call: the heatmap was built with no
group separator, the search returned a non-empty list, and the returned
result is its first element with the conditional +10000 full-match boost. -/
theorem score_some_elim (s q : List Nat) (r : Result) (h : score s q = some r) :
    ∃ hm base rest, get_heatmap_str s none = some hm ∧
      fbmGo (get_hash_for_string s) hm q none = base :: rest ∧
      r.indices = base.indices ∧ r.tail = base.tail ∧
      r.score = base.score
        + (if (1 < q.length ∧ q.length < 5) ∧ base.indices.length = s.length
           then 10000 else 0) := by
  simp only [score] at h
  split at h
  · cases h
  · split at h
    · cases h
    · rename_i hm hhm
      split at h
      · cases h
      · rename_i base rest hfb
        split at h
        · rename_i hb
          cases h
          exact ⟨hm, base, rest, hhm, hfb, rfl, rfl, by rw [if_pos hb]⟩
        · rename_i hb
          cases h
          exact ⟨hm, r, rest, hhm, hfb, rfl, rfl, by rw [if_neg hb]; simp⟩

/-! ### occScore lemmas -/

theorem occScore_tail_nonneg (hm : List Int) :
    ∀ ps : List Nat, 0 ≤ (occScore hm ps).2 := by
  intro ps
  match ps with
  | [] => simp [occScore]
  | [p] => simp [occScore]
  | p :: r1 :: rest =>
    have ih := occScore_tail_nonneg hm (r1 :: rest)
    rw [occScore]
    by_cases h : r1 = p + 1
    · rw [if_pos h]
      simpa using le_trans ih (by omega)
    · rw [if_neg h]

theorem occScore_scattered (hm : List Int) :
    ∀ ps : List Nat, Scattered ps →
      occScore hm ps = (heatSum hm ps, 0) := by
  intro ps
  match ps with
  | [] => intro _; simp [occScore, heatSum]
  | [p] => intro _; simp [occScore, heatSum]
  | p :: r1 :: rest =>
    intro hsc
    have hstep : p + 1 < r1 := (List.chain'_cons.1 hsc).1
    have ih := occScore_scattered hm (r1 :: rest) (List.chain'_cons.1 hsc).2
    rw [occScore, if_neg (by omega), ih]
    simp [heatSum]
    ring

theorem occScore_contiguous (hm : List Int) :
    ∀ ps : List Nat, Contiguous ps →
      heatSum hm ps + 60 * ((ps.length : Int) - 1) ≤ (occScore hm ps).1 := by
  intro ps
  match ps with
  | [] => intro _; simp [occScore, heatSum]
  | [p] => intro _; simp [occScore, heatSum]
  | p :: r1 :: rest =>
    intro hco
    have hstep : r1 = p + 1 := (List.chain'_cons.1 hco).1
    have ih := occScore_contiguous hm (r1 :: rest) (List.chain'_cons.1 hco).2
    have htl := occScore_tail_nonneg hm (r1 :: rest)
    rw [occScore, if_pos hstep]
    have hmin : 0 ≤ min (occScore hm (r1 :: rest)).2 3 * 15 := by
      have : (0 : Int) ≤ min (occScore hm (r1 :: rest)).2 3 := le_min htl (by omega)
      omega
    have hlen : ((r1 :: rest).length : Int) = (rest.length : Int) + 1 := by simp
    have hlen2 : ((p :: r1 :: rest).length : Int) = (rest.length : Int) + 2 := by
      push_cast [List.length_cons]
      ring
    have hsum : heatSum hm (p :: r1 :: rest) = hm.getD p 0 + heatSum hm (r1 :: rest) := by
      simp [heatSum]
    rw [hsum, hlen2]
    rw [hlen] at ih
    omega

/-! ### Claim theorems -/

/-- Claim C1: for every target and query for which `score` returns a result,
the result's `indices` form a strictly increasing sequence of target
positions whose length equals the query's code-point count. -/
theorem c1_score_indices (s q : List Nat) (r : Result) (h : score s q = some r) :
    r.indices.Chain' (· < ·) ∧ r.indices.length = q.length ∧
      ∀ p ∈ r.indices, p < s.length := by
  obtain ⟨hm, base, rest, hhm, hfb, hind, htail, hsc⟩ := score_some_elim s q r h
  have hbase : base ∈ fbmGo (get_hash_for_string s) hm q none := by
    rw [hfb]; exact List.mem_cons_self _ _
  have hs := fbmGo_spec (get_hash_for_string s) hm q none base hbase
  rw [hind]
  refine ⟨hs.2.1, (List.Forall₂.length_eq hs.1).symm, ?_⟩
  intro p hp
  rcases forall₂_mem_right hs.1 p hp with ⟨c, _, hpc⟩
  exact (mem_get_hash_for_string s c p hpc).1

/-- Witness for C1 at target "ab", query "ab". -/
theorem c1_witness :
    (⟨[0, 1], 10143, 1⟩ : Result).indices.Chain' (· < ·)
    ∧ (⟨[0, 1], 10143, 1⟩ : Result).indices.length = ([97, 98] : List Nat).length
    ∧ ∀ p ∈ (⟨[0, 1], 10143, 1⟩ : Result).indices, p < ([97, 98] : List Nat).length :=
  c1_score_indices [97, 98] [97, 98] ⟨[0, 1], 10143, 1⟩ (by decide)

/-- Claim C2: each matched target character equals the corresponding query
character, or is a capital character whose lowercase folding equals the
query character (an uppercase query character never matches a lowercase or
different target character). -/
theorem c2_score_case_rules (s q : List Nat) (r : Result) (i : Nat)
    (h : score s q = some r) (hi : i < q.length) :
    s.getD (r.indices.getD i 0) 0 = q.getD i 0
    ∨ (capital (some (s.getD (r.indices.getD i 0) 0)) = true
       ∧ toLowerCp (s.getD (r.indices.getD i 0) 0) = q.getD i 0) := by
  obtain ⟨hm, base, rest, hhm, hfb, hind, _, _⟩ := score_some_elim s q r h
  have hbase : base ∈ fbmGo (get_hash_for_string s) hm q none := by
    rw [hfb]; exact List.mem_cons_self _ _
  have hs := fbmGo_spec (get_hash_for_string s) hm q none base hbase
  have hmem : r.indices.getD i 0 ∈ get_hash_for_string s (q.getD i 0) := by
    rw [hind]
    exact forall₂_getD hs.1 i hi
  exact (mem_get_hash_for_string s _ _ hmem).2

/-- Witness for C2 at target "aB", query "ab", index 1 (a lowercase query
character matching an uppercase target character). -/
theorem c2_witness :
    ([97, 66] : List Nat).getD ((⟨[0, 1], 10226, 1⟩ : Result).indices.getD 1 0) 0
        = ([97, 98] : List Nat).getD 1 0
    ∨ (capital (some (([97, 66] : List Nat).getD
          ((⟨[0, 1], 10226, 1⟩ : Result).indices.getD 1 0) 0)) = true
       ∧ toLowerCp (([97, 66] : List Nat).getD
          ((⟨[0, 1], 10226, 1⟩ : Result).indices.getD 1 0) 0)
          = ([97, 98] : List Nat).getD 1 0) :=
  c2_score_case_rules [97, 66] [97, 98] ⟨[0, 1], 10226, 1⟩ 1 (by decide) (by decide)

/-- Claim C3: `score` adds the flat +10000 bonus to the first search result
exactly when the query length is 2, 3 or 4 and the match covers every
position of the target; in particular score("ab","ab") includes the bonus
(143 + 10000) and score("ab","a") does not (84). -/
theorem c3_full_match_boost :
    (∀ s q r, score s q = some r →
      ∃ hm base rest, get_heatmap_str s none = some hm ∧
        fbmGo (get_hash_for_string s) hm q none = base :: rest ∧
        r.indices = base.indices ∧
        r.score = base.score
          + (if (1 < q.length ∧ q.length < 5) ∧ base.indices.length = s.length
             then 10000 else 0))
    ∧ score [97, 98] [97, 98] = some ⟨[0, 1], 143 + 10000, 1⟩
    ∧ score [97, 98] [97] = some ⟨[0], 84, 0⟩ := by
  refine ⟨?_, by decide, by decide⟩
  intro s q r h
  obtain ⟨hm, base, rest, hhm, hfb, hind, htail, hsc⟩ := score_some_elim s q r h
  exact ⟨hm, base, rest, hhm, hfb, hind, hsc⟩

/-- Witness for C3 at target "ab", query "ab". -/
theorem c3_witness :
    ∃ hm base rest, get_heatmap_str [97, 98] none = some hm ∧
      fbmGo (get_hash_for_string [97, 98]) hm [97, 98] none = base :: rest ∧
      (⟨[0, 1], 10143, 1⟩ : Result).indices = base.indices ∧
      (⟨[0, 1], 10143, 1⟩ : Result).score = base.score
        + (if (1 < ([97, 98] : List Nat).length ∧ ([97, 98] : List Nat).length < 5)
              ∧ base.indices.length = ([97, 98] : List Nat).length
           then 10000 else 0) :=
  c3_full_match_boost.1 [97, 98] [97, 98] ⟨[0, 1], 10143, 1⟩ (by decide)

/-- Claim C4 counterexample: for target "xa_a" and the single-character
query "a" the search returns two results, with scores -3 (position 1) and
81 (position 3); `score` returns the first, whose score is NOT the maximum
of the list. -/
theorem c4_counterexample :
    get_heatmap_str [120, 97, 95, 97] none = some [83, -3, -4, 81]
    ∧ fbmGo (get_hash_for_string [120, 97, 95, 97]) [83, -3, -4, 81] [97] none
        = [⟨[1], -3, 0⟩, ⟨[3], 81, 0⟩]
    ∧ score [120, 97, 95, 97] [97] = some ⟨[1], -3, 0⟩
    ∧ (⟨[1], -3, 0⟩ : Result).score < (⟨[3], 81, 0⟩ : Result).score := by
  refine ⟨by decide, by decide, by decide, by decide⟩

/-- Claim C4 (amended): `score` returns the first element of the result
list; for queries of at least two characters the list has at most one
element (the greedy search keeps only the best), so the first element is
then the best, but for a one-character query the list holds one result per
candidate position in ascending position order and the first need not have
the maximum score. -/
theorem c4_first_result (s q : List Nat) (r : Result) (h : score s q = some r) :
    ∃ hm base rest, get_heatmap_str s none = some hm ∧
      fbmGo (get_hash_for_string s) hm q none = base :: rest ∧
      r.indices = base.indices ∧ (2 ≤ q.length → rest = []) := by
  obtain ⟨hm, base, rest, hhm, hfb, hind, _, _⟩ := score_some_elim s q r h
  refine ⟨hm, base, rest, hhm, hfb, hind, ?_⟩
  intro hq
  match q, hq with
  | c :: d :: q2, _ =>
    have hlen := fbmGo_len_le (get_hash_for_string s) hm c d q2 none
    rw [hfb] at hlen
    simp only [List.length_cons] at hlen
    have : rest.length = 0 := by omega
    exact List.length_eq_zero.1 this

/-- Witness for C4 (amended) at target "ab", query "ab". -/
theorem c4_witness :
    ∃ hm base rest, get_heatmap_str [97, 98] none = some hm ∧
      fbmGo (get_hash_for_string [97, 98]) hm [97, 98] none = base :: rest ∧
      (⟨[0, 1], 10143, 1⟩ : Result).indices = base.indices
      ∧ (2 ≤ ([97, 98] : List Nat).length → rest = []) :=
  c4_first_result [97, 98] [97, 98] ⟨[0, 1], 10143, 1⟩ (by decide)

/-- Claim C5 counterexample: in target "xab_a_b" the query "ab" occurs
contiguously at positions [1,2] (score 51) and scattered at positions
[4,6] (score 156): the scattered occurrence scores strictly higher. -/
theorem c5_counterexample :
    get_heatmap_str [120, 97, 98, 95, 97, 95, 98] none
      = some [82, -4, -5, -6, 79, -7, 77]
    ∧ OccursAt [120, 97, 98, 95, 97, 95, 98] [97, 98] [1, 2]
    ∧ Contiguous [1, 2]
    ∧ OccursAt [120, 97, 98, 95, 97, 95, 98] [97, 98] [4, 6]
    ∧ Scattered [4, 6]
    ∧ (occScore [82, -4, -5, -6, 79, -7, 77] [1, 2]).1
        < (occScore [82, -4, -5, -6, 79, -7, 77] [4, 6]).1 := by
  refine ⟨by decide, ⟨?_, by decide⟩, ?_, ⟨?_, by decide⟩, ?_, by decide⟩ <;>
    simp [Contiguous, Scattered, List.chain'_cons]

/-- Claim C5 (amended): a contiguous occurrence scores strictly higher than
a scattered occurrence of the same (at least two character) query provided
its positions carry at least as much total heatmap weight; the bare claim
fails because word-boundary heatmap bonuses (+85) can outweigh the
contiguity bonus, as the counterexample shows. -/
theorem c5_contiguous_preference (s q ps_c ps_s : List Nat) (hm : List Int)
    (hhm : get_heatmap_str s none = some hm)
    (hq : 2 ≤ q.length)
    (hoc : OccursAt s q ps_c) (hcont : Contiguous ps_c)
    (hos : OccursAt s q ps_s) (hscat : Scattered ps_s)
    (hsum : heatSum hm ps_s ≤ heatSum hm ps_c) :
    (occScore hm ps_s).1 < (occScore hm ps_c).1 := by
  have hlc : ps_c.length = q.length := (List.Forall₂.length_eq hoc.2).symm
  have hc := occScore_contiguous hm ps_c hcont
  have hsct := occScore_scattered hm ps_s hscat
  rw [hsct]
  have h2 : (2 : Int) ≤ (ps_c.length : Int) := by
    rw [hlc]; exact_mod_cast hq
  omega

/-- Witness for C5 (amended) at target "abab", query "ab", contiguous
occurrence [0,1], scattered occurrence [0,3]. -/
theorem c5_witness :
    (occScore [84, -2, -3, -3] [0, 3]).1 < (occScore [84, -2, -3, -3] [0, 1]).1 := by
  refine c5_contiguous_preference [97, 98, 97, 98] [97, 98] [0, 1] [0, 3]
    [84, -2, -3, -3] (by decide) (by decide) ⟨?_, by decide⟩ ?_ ⟨?_, by decide⟩ ?_
    (by decide) <;>
    simp [Contiguous, Scattered, List.chain'_cons]

/-- Claim C6 counterexample: for the target "1" (a word character that is
its own uppercase and its own lowercase) the position list stored under key
49 is [0, 0]: position 0 occurs twice, so the list is not strictly
ascending. -/
theorem c6_counterexample :
    get_hash_for_string [49] 49 = [0, 0]
    ∧ ¬ List.Chain' (· < ·) (get_hash_for_string [49] 49)
    ∧ (get_hash_for_string [49] 49).count 0 = 2 := by
  refine ⟨by decide, ?_, by decide⟩
  intro hch
  have : get_hash_for_string [49] 49 = [0, 0] := by decide
  rw [this] at hch
  simp [List.chain'_cons] at hch

/-- Claim C6 (amended): every per-key position list is sorted in
non-decreasing order; a position occurs at most twice per key, and occurs
twice exactly for the key of a capital character that is its own lowercase
folding (then both the capital insert and the lowercase insert hit the
same key), so duplicates beyond repeated source characters do exist for
caseless word characters. -/
theorem c6_hash_sorted (s : List Nat) (k p : Nat) :
    List.Chain' (· ≤ ·) (get_hash_for_string s k)
    ∧ (get_hash_for_string s k).count p ≤ 2
    ∧ ((get_hash_for_string s k).count p = 2 →
        capital (some (s.getD p 0)) = true ∧ toLowerCp (s.getD p 0) = s.getD p 0
        ∧ k = s.getD p 0) := by
  refine ⟨get_hash_for_string_sorted s k, ?_, ?_⟩
  · rw [get_hash_for_string_count]
    split_ifs <;> omega
  · intro h
    rw [get_hash_for_string_count] at h
    by_cases h1 : p < s.length ∧ capital (some (s.getD p 0)) = true ∧ k = s.getD p 0
    · by_cases h2 : p < s.length ∧ k = downKey s p
      · have hdk := h2.2
        unfold downKey at hdk
        rw [if_pos h1.2.1] at hdk
        exact ⟨h1.2.1, by rw [h1.2.2] at hdk; exact hdk.symm, h1.2.2⟩
      · rw [if_pos h1, if_neg h2] at h
        omega
    · rw [if_neg h1] at h
      split_ifs at h <;> omega

/-- Witness for C6 (amended) at target "1", key 49, position 0. -/
theorem c6_witness :
    capital (some (([49] : List Nat).getD 0 0)) = true
    ∧ toLowerCp (([49] : List Nat).getD 0 0) = ([49] : List Nat).getD 0 0
    ∧ 49 = ([49] : List Nat).getD 0 0 :=
  (c6_hash_sorted [49] 49 0).2.2 (by decide)

/-- Claim C7 counterexample: the digit 49 (the character "1") has no case
distinction (it is its own uppercase and its own lowercase) and is a word
character, yet `capital` classifies it as capital. -/
theorem c7_counterexample :
    capital (some 49) = true ∧ toUpperCp 49 = 49 ∧ toLowerCp 49 = 49
    ∧ word (some 49) = true := by decide

/-- Claim C7 (amended): `capital` is true exactly for a word character that
is a valid scalar value equal to its own (first-character) uppercase form;
code points with no case distinction, such as digits, satisfy this and ARE
classified as capital. -/
theorem c7_capital_iff :
    (∀ c, capital (some c) = true ↔
      (word (some c) = true ∧ validCp c = true ∧ toUpperCp c = c))
    ∧ capital none = false ∧ capital (some 49) = true := by
  refine ⟨?_, rfl, by decide⟩
  intro c
  show (word (some c) && is_uppercase (fromU32 c)) = true ↔ _
  unfold fromU32
  by_cases h : validCp c = true
  · rw [if_pos h]
    show (word (some c) && (c == toUpperCp c)) = true ↔ _
    rw [Bool.and_eq_true, beq_iff_eq]
    constructor
    · rintro ⟨hw, he⟩
      exact ⟨hw, h, he.symm⟩
    · rintro ⟨hw, _, he⟩
      exact ⟨hw, he.symm⟩
  · rw [if_neg h]
    show (word (some c) && false) = true ↔ _
    simp [h]

/-! ### Heatmap totality lemmas -/

theorem setIdx_some_of_lt (l : List Int) (i : Nat) (d : Int) (h : i < l.length) :
    ∃ l2, setIdx l i d = some l2 ∧ l2.length = l.length := by
  unfold setIdx
  rw [dif_pos h]
  exact ⟨_, rfl, by simp⟩

theorem setIdx_length (l l2 : List Int) (i : Nat) (d : Int)
    (h : setIdx l i d = some l2) : l2.length = l.length := by
  unfold setIdx at h
  split_ifs at h
  cases h
  simp

theorem setIdx_getD (l l2 : List Int) (i : Nat) (d : Int)
    (h : setIdx l i d = some l2) :
    ∀ j, l2.getD j 0 = l.getD j 0 + (if j = i then d else 0) := by
  unfold setIdx at h
  split_ifs at h with hi
  · cases h
    intro j
    by_cases hji : j = i
    · subst hji
      rw [if_pos rfl]
      have hg : l.getD j 0 = l.get ⟨j, hi⟩ := by
        simp [List.getD_eq_getElem?_getD, List.getElem?_eq_getElem hi]
      simp [List.getD_eq_getElem?_getD, List.getElem?_set, hi, hg]
    · rw [if_neg hji]
      have hij : ¬ i = j := fun hh => hji hh.symm
      simp [List.getD_eq_getElem?_getD, List.getElem?_set, hij]

theorem incVecGo_some (inc : Int) :
    ∀ (fuel : Nat) (l : List Int) (pos : Nat), pos + fuel ≤ l.length →
      ∃ l2, incVecGo inc l pos fuel = some l2 ∧ l2.length = l.length := by
  intro fuel
  induction fuel with
  | zero => intro l pos _; exact ⟨l, rfl, rfl⟩
  | succ fuel ih =>
    intro l pos hle
    obtain ⟨l1, hl1, hlen1⟩ := setIdx_some_of_lt l pos inc (by omega)
    obtain ⟨l2, hl2, hlen2⟩ := ih l1 (pos + 1) (by omega)
    refine ⟨l2, ?_, by omega⟩
    rw [incVecGo, hl1]
    exact hl2

theorem incVecGo_getD (inc : Int) :
    ∀ (fuel : Nat) (l l2 : List Int) (pos : Nat),
      incVecGo inc l pos fuel = some l2 →
      ∀ j, l2.getD j 0 = l.getD j 0 + (if pos ≤ j ∧ j < pos + fuel then inc else 0) := by
  intro fuel
  induction fuel with
  | zero =>
    intro l l2 pos h j
    cases h
    simp
  | succ fuel ih =>
    intro l l2 pos h j
    rw [incVecGo] at h
    cases hset : setIdx l pos inc with
    | none => rw [hset] at h; cases h
    | some l1 =>
      rw [hset] at h
      have h1 := setIdx_getD l l1 pos inc hset j
      have h2 := ih l1 l2 (pos + 1) h j
      rw [h2, h1]
      split_ifs <;> omega

theorem inc_vec_some (l : List Int) (inc beg e : Int)
    (hbeg : 0 ≤ beg) (he : e ≤ (l.length : Int)) :
    ∃ l2, inc_vec l inc beg e = some l2 ∧ l2.length = l.length := by
  unfold inc_vec
  rw [if_neg (by omega)]
  by_cases hbe : e ≤ beg
  · have h0 : (e - beg).toNat = 0 := by omega
    rw [h0]
    exact ⟨l, rfl, rfl⟩
  · apply incVecGo_some
    omega

theorem inc_vec_getD (l l2 : List Int) (inc beg e : Int)
    (hbeg : 0 ≤ beg) (h : inc_vec l inc beg e = some l2) :
    ∀ j, l2.getD j 0 = l.getD j 0 + (if beg ≤ (j : Int) ∧ (j : Int) < e then inc else 0) := by
  unfold inc_vec at h
  rw [if_neg (by omega)] at h
  intro j
  have hg := incVecGo_getD inc (e - beg).toNat l l2 beg.toNat h j
  rw [hg]
  by_cases hc : beg.toNat ≤ j ∧ j < beg.toNat + (e - beg).toNat
  · rw [if_pos hc, if_pos (by omega)]
  · rw [if_neg hc, if_neg (by omega)]

theorem penaltyGo_some (wi : Int) :
    ∀ (fuel : Nat) (l : List Int) (pos : Nat) (chI : Int), pos + fuel ≤ l.length →
      ∃ l2, penaltyGo wi l pos chI fuel = some l2 ∧ l2.length = l.length := by
  intro fuel
  induction fuel with
  | zero => intro l pos chI _; exact ⟨l, rfl, rfl⟩
  | succ fuel ih =>
    intro l pos chI hle
    obtain ⟨l1, hl1, hlen1⟩ := setIdx_some_of_lt l pos (-3 * wi - chI) (by omega)
    obtain ⟨l2, hl2, hlen2⟩ := ih l1 (pos + 1) (chI + 1) (by omega)
    refine ⟨l2, ?_, by omega⟩
    rw [penaltyGo, hl1]
    exact hl2

theorem penaltyWalk_some (sc : List Int) (w : Nat) (lastWord wi : Int)
    (hlw : lastWord ≤ (sc.length : Int)) :
    ∃ l2, penaltyWalk sc w lastWord wi = some l2 ∧ l2.length = sc.length := by
  unfold penaltyWalk
  by_cases hwl : lastWord ≤ (w : Int)
  · have h0 : (lastWord - w).toNat = 0 := by omega
    rw [h0]
    exact ⟨sc, rfl, rfl⟩
  · apply penaltyGo_some
    omega

theorem wordLoop_some :
    ∀ (ws : List Nat) (sc : List Int) (lastWord wi : Int),
      (∀ w ∈ ws, w < sc.length) → lastWord ≤ (sc.length : Int) →
      ∃ l2, wordLoop sc ws lastWord wi = some l2 ∧ l2.length = sc.length := by
  intro ws
  induction ws with
  | nil => intro sc lastWord wi _ _; exact ⟨sc, rfl, rfl⟩
  | cons w ws ih =>
    intro sc lastWord wi hws hlw
    have hw : w < sc.length := hws w (List.mem_cons_self _ _)
    obtain ⟨l1, hl1, hlen1⟩ := setIdx_some_of_lt sc w 85 hw
    obtain ⟨l2, hl2, hlen2⟩ := penaltyWalk_some l1 w lastWord wi (by omega)
    obtain ⟨l3, hl3, hlen3⟩ := ih l2 (w : Int) (wi - 1)
      (fun x hx => by have := hws x (List.mem_cons_of_mem _ hx); omega)
      (by push_cast; omega)
    refine ⟨l3, ?_, by omega⟩
    simp only [wordLoop, hl1, hl2]
    exact hl3

theorem groupStep_some (n : Nat) (sepCount : Int) (st : GSt) (g : HGroup)
    (hlen : st.scores.length = n) (hwf : GroupWF n g)
    (hlim : ∀ v, st.lastLimit = some v → 0 ≤ v ∧ v ≤ (n : Int)) :
    ∃ st2, groupStep n sepCount st g = some st2 ∧ st2.scores.length = n
      ∧ st2.lastLimit = some (g.start + 1)
      ∧ (∀ v, st2.lastLimit = some v → 0 ≤ v ∧ v ≤ (n : Int)) := by
  obtain ⟨hs1, hs2, hs3⟩ := hwf
  have hlimv : (st.lastLimit.getD (n : Int)) ≤ (n : Int) := by
    cases hl : st.lastLimit with
    | none => simp
    | some v => simpa using (hlim v hl).2
  obtain ⟨l1, hl1, hlen1⟩ := inc_vec_some st.scores
    (if (g.bounds.length != 0) && !st.basepathFound then
      35 + (if sepCount > 1 then sepCount - 1 else 0) + (-g.wc)
     else if st.index2 = 0 then -3 else -5 + (st.index2 - 1))
    (g.start + 1) (st.lastLimit.getD (n : Int)) (by omega) (by omega)
  obtain ⟨l2, hl2, hlen2⟩ := wordLoop_some g.bounds l1 (st.lastLimit.getD (n : Int))
    ((g.bounds.length : Int) - 1)
    (fun w hw => by have := hs3 w hw; omega) (by omega)
  refine ⟨⟨l2, st.index2 - 1, some (g.start + 1), st.basepathFound
      || ((g.bounds.length != 0) && !st.basepathFound)⟩, ?_,
      by exact (hlen2.trans hlen1).trans hlen, rfl, ?_⟩
  · simp only [groupStep, hl1, hl2]
  · intro v hv
    simp only [Option.some.injEq] at hv
    omega

theorem groupsGo_some (n : Nat) (sepCount : Int) :
    ∀ (gl : List HGroup) (st : GSt),
      st.scores.length = n → (∀ g ∈ gl, GroupWF n g) →
      (∀ v, st.lastLimit = some v → 0 ≤ v ∧ v ≤ (n : Int)) →
      ∃ st2, groupsGo n sepCount gl st = some st2 ∧ st2.scores.length = n := by
  intro gl
  induction gl with
  | nil => intro st h _ _; exact ⟨st, rfl, h⟩
  | cons g gl ih =>
    intro st hlen hwf hlim
    obtain ⟨st1, hst1, hlen1, hll, hlim1⟩ :=
      groupStep_some n sepCount st g hlen (hwf g (List.mem_cons_self _ _)) hlim
    obtain ⟨st2, hst2, hlen2⟩ := ih st1 hlen1
      (fun g2 hg2 => hwf g2 (List.mem_cons_of_mem _ hg2)) hlim1
    refine ⟨st2, ?_, hlen2⟩
    rw [groupsGo, hst1]
    exact hst2

theorem updHead_length (f : HGroup → HGroup) (gl : List HGroup) :
    (updHead f gl).length = gl.length := by
  cases gl <;> rfl

theorem updHead_ne (f : HGroup → HGroup) (gl : List HGroup) (h : gl ≠ []) :
    updHead f gl ≠ [] := by
  cases gl with
  | nil => exact absurd rfl h
  | cons g gs => simp [updHead]

theorem updHead_wf (n : Nat) (f : HGroup → HGroup) (gl : List HGroup)
    (hwf : ∀ g ∈ gl, GroupWF n g) (hf : ∀ g, GroupWF n g → GroupWF n (f g)) :
    ∀ g ∈ updHead f gl, GroupWF n g := by
  cases gl with
  | nil => intro g hg; cases hg
  | cons g0 gs =>
    intro g hg
    rcases List.mem_cons.1 hg with h1 | h1
    · subst h1; exact hf g0 (hwf g0 (List.mem_cons_self _ _))
    · exact hwf g (List.mem_cons_of_mem _ h1)

/-- One scan step succeeds on an in-range position and preserves the scan
invariants; with no group separator it also preserves the group count and
the presence of word boundaries in the head group (establishing the latter
whenever no word has been seen yet, since the step then records a
boundary). -/
theorem scanStep_wf (gsep : Option Nat) (lastIdx : Nat) (st : ScanSt) (index1 ch n : Nat)
    (hlen : st.scores.length = n) (hidx : index1 < n)
    (hwf : ∀ g ∈ st.groups, GroupWF n g) (hne : st.groups ≠ []) :
    ∃ st1, scanStep gsep lastIdx st index1 ch = some st1 ∧ st1.scores.length = n ∧
      (∀ g ∈ st1.groups, GroupWF n g) ∧ st1.groups ≠ []
      ∧ (gsep = none → st1.groups.length = st.groups.length)
      ∧ (gsep = none → headBoundsNE st.groups → headBoundsNE st1.groups)
      ∧ (gsep = none → st.gwc = 0 → headBoundsNE st1.groups) := by
  have hcons : ∀ (gl : List HGroup), gl ≠ [] → headBoundsNE (updHead
      (fun g => ⟨g.start, g.wc, index1 :: g.bounds⟩) gl) := by
    intro gl hgl
    cases gl with
    | nil => exact absurd rfl hgl
    | cons g gs => simp [updHead, headBoundsNE]
  have hwfcons : ∀ g, GroupWF n g → GroupWF n (⟨g.start, g.wc, index1 :: g.bounds⟩ : HGroup) := by
    intro g hg
    refine ⟨hg.1, hg.2.1, ?_⟩
    intro b hb
    rcases List.mem_cons.1 hb with h1 | h1
    · omega
    · exact hg.2.2 b h1
  have hwfwc : ∀ (w : Int) (g : HGroup), GroupWF n g → GroupWF n (⟨g.start, w, g.bounds⟩ : HGroup) := by
    intro w g hg
    exact ⟨hg.1, hg.2.1, hg.2.2⟩
  obtain ⟨scores1, hsc1, hsclen⟩ :
      ∃ l2, (if st.lastChar = some 46 then setIdx st.scores index1 (-45)
             else some st.scores) = some l2 ∧ l2.length = st.scores.length := by
    by_cases hlc : st.lastChar = some 46
    · rw [if_pos hlc]
      exact setIdx_some_of_lt st.scores index1 (-45) (by omega)
    · rw [if_neg hlc]
      exact ⟨st.scores, rfl, rfl⟩
  simp only [scanStep, hsc1]
  set groups1 := (if boundary (if st.gwc = 0 then none else st.lastChar) (some ch) then
      updHead (fun g => ⟨g.start, g.wc, index1 :: g.bounds⟩) st.groups
    else st.groups) with hgroups1
  have hg1wf : ∀ g ∈ groups1, GroupWF n g := by
    rw [hgroups1]
    by_cases hb : boundary (if st.gwc = 0 then none else st.lastChar) (some ch) = true
    · rw [if_pos hb]
      exact updHead_wf n _ st.groups hwf hwfcons
    · rw [if_neg hb]
      exact hwf
  have hg1ne : groups1 ≠ [] := by
    rw [hgroups1]
    by_cases hb : boundary (if st.gwc = 0 then none else st.lastChar) (some ch) = true
    · rw [if_pos hb]
      exact updHead_ne _ _ hne
    · rw [if_neg hb]
      exact hne
  have hg1len : groups1.length = st.groups.length := by
    rw [hgroups1]
    by_cases hb : boundary (if st.gwc = 0 then none else st.lastChar) (some ch) = true
    · rw [if_pos hb]
      exact updHead_length _ _
    · rw [if_neg hb]
  have hg1hb : headBoundsNE st.groups → headBoundsNE groups1 := by
    rw [hgroups1]
    by_cases hb : boundary (if st.gwc = 0 then none else st.lastChar) (some ch) = true
    · rw [if_pos hb]
      intro _
      exact hcons st.groups hne
    · rw [if_neg hb]
      exact id
  have hg1hb0 : st.gwc = 0 → headBoundsNE groups1 := by
    intro hgwc
    rw [hgroups1]
    have : boundary (if st.gwc = 0 then none else st.lastChar) (some ch) = true := by
      rw [if_pos hgwc]
      unfold boundary
      rw [if_pos rfl]
    rw [if_pos this]
    exact hcons st.groups hne
  clear_value groups1
  by_cases hsep : gsep = some ch
  · -- a new group is inserted; only the unconditional conclusions matter
    rw [if_pos hsep]
    have hnewwf : GroupWF n ⟨(index1 : Int), 0, []⟩ :=
      ⟨(by omega : (-1 : Int) ≤ ((index1 : Nat) : Int)),
       (by exact_mod_cast hidx : ((index1 : Nat) : Int) < ((n : Nat) : Int)),
       fun b hb => absurd hb (List.not_mem_nil b)⟩
    by_cases hli : index1 = lastIdx
    · rw [if_pos hli]
      refine ⟨⟨scores1, updHead (fun g2 => (⟨g2.start, 0, g2.bounds⟩ : HGroup))
          ((⟨(index1 : Int), 0, []⟩ : HGroup) :: updHead (fun g2 => (⟨g2.start, (if (!word st.lastChar && word (some ch)) = true then st.gwc + 1 else st.gwc), g2.bounds⟩ : HGroup)) groups1),
          st.lastChar, 0⟩, rfl, hsclen.trans hlen, ?_, ?_, ?_, ?_, ?_⟩
      · intro g hg
        rcases List.mem_cons.1 hg with h1 | h1
        · subst h1
          exact ⟨hnewwf.1, hnewwf.2.1, hnewwf.2.2⟩
        · exact updHead_wf n (fun g2 => (⟨g2.start, (if (!word st.lastChar && word (some ch)) = true then st.gwc + 1 else st.gwc), g2.bounds⟩ : HGroup)) groups1 hg1wf
            (fun g2 hg2 => ⟨hg2.1, hg2.2.1, hg2.2.2⟩) g h1
      · show updHead (fun g2 => (⟨g2.start, 0, g2.bounds⟩ : HGroup))
            ((⟨(index1 : Int), 0, []⟩ : HGroup) :: updHead (fun g2 => (⟨g2.start, (if (!word st.lastChar && word (some ch)) = true then st.gwc + 1 else st.gwc), g2.bounds⟩ : HGroup)) groups1) ≠ []
        exact updHead_ne _ _ (List.cons_ne_nil _ _)
      · intro hnone; exact absurd hsep (by simp [hnone])
      · intro hnone; exact absurd hsep (by simp [hnone])
      · intro hnone; exact absurd hsep (by simp [hnone])
    · rw [if_neg hli]
      refine ⟨⟨scores1, (⟨(index1 : Int), 0, []⟩ : HGroup) :: updHead (fun g2 => (⟨g2.start, (if (!word st.lastChar && word (some ch)) = true then st.gwc + 1 else st.gwc), g2.bounds⟩ : HGroup)) groups1,
          some ch, 0⟩, rfl, hsclen.trans hlen, ?_, ?_, ?_, ?_, ?_⟩
      · intro g hg
        rcases List.mem_cons.1 hg with h1 | h1
        · subst h1
          exact ⟨hnewwf.1, hnewwf.2.1, hnewwf.2.2⟩
        · exact updHead_wf n (fun g2 => (⟨g2.start, (if (!word st.lastChar && word (some ch)) = true then st.gwc + 1 else st.gwc), g2.bounds⟩ : HGroup)) groups1 hg1wf
            (fun g2 hg2 => ⟨hg2.1, hg2.2.1, hg2.2.2⟩) g h1
      · show (⟨(index1 : Int), 0, []⟩ : HGroup) :: updHead (fun g2 => (⟨g2.start, (if (!word st.lastChar && word (some ch)) = true then st.gwc + 1 else st.gwc), g2.bounds⟩ : HGroup)) groups1 ≠ []
        exact List.cons_ne_nil _ _
      · intro hnone; exact absurd hsep (by simp [hnone])
      · intro hnone; exact absurd hsep (by simp [hnone])
      · intro hnone; exact absurd hsep (by simp [hnone])
  · rw [if_neg hsep]
    by_cases hli : index1 = lastIdx
    · rw [if_pos hli]
      refine ⟨⟨scores1, updHead (fun g2 => (⟨g2.start, (if (!word st.lastChar && word (some ch)) = true then st.gwc + 1 else st.gwc), g2.bounds⟩ : HGroup)) groups1,
          st.lastChar, (if (!word st.lastChar && word (some ch)) = true then st.gwc + 1 else st.gwc)⟩, rfl, hsclen.trans hlen, ?_, ?_, ?_, ?_, ?_⟩
      · intro g hg
        exact updHead_wf n (fun g2 => (⟨g2.start, (if (!word st.lastChar && word (some ch)) = true then st.gwc + 1 else st.gwc), g2.bounds⟩ : HGroup)) groups1 hg1wf
          (fun g2 hg2 => ⟨hg2.1, hg2.2.1, hg2.2.2⟩) g hg
      · show updHead (fun g2 => (⟨g2.start, (if (!word st.lastChar && word (some ch)) = true then st.gwc + 1 else st.gwc), g2.bounds⟩ : HGroup)) groups1 ≠ []
        exact updHead_ne _ _ hg1ne
      · intro _
        exact (updHead_length _ groups1).trans hg1len
      · intro _ hhb
        have h2 := hg1hb hhb
        cases hgl : groups1 with
        | nil =>
          rw [hgl] at h2
          exact False.elim h2
        | cons g gs =>
          rw [hgl] at h2
          exact h2
      · intro _ hgwc
        have h2 := hg1hb0 hgwc
        cases hgl : groups1 with
        | nil =>
          rw [hgl] at h2
          exact False.elim h2
        | cons g gs =>
          rw [hgl] at h2
          exact h2
    · rw [if_neg hli]
      refine ⟨⟨scores1, groups1, some ch, (if (!word st.lastChar && word (some ch)) = true then st.gwc + 1 else st.gwc)⟩, rfl, hsclen.trans hlen,
          hg1wf, hg1ne, ?_, ?_, ?_⟩
      · intro _; exact hg1len
      · intro _; exact hg1hb
      · intro _; exact hg1hb0

/-- The scan loop succeeds over in-range positions and preserves the scan
invariants (and, with no separator, the group count and head boundary). -/
theorem scanGo_wf (gsep : Option Nat) (lastIdx n : Nat) :
    ∀ (chs : List Nat) (i : Nat) (st : ScanSt),
      st.scores.length = n → i + chs.length ≤ n →
      (∀ g ∈ st.groups, GroupWF n g) → st.groups ≠ [] →
      ∃ st2, scanGo gsep lastIdx chs i st = some st2 ∧ st2.scores.length = n ∧
        (∀ g ∈ st2.groups, GroupWF n g) ∧ st2.groups ≠ []
        ∧ (gsep = none → st2.groups.length = st.groups.length)
        ∧ (gsep = none → headBoundsNE st.groups → headBoundsNE st2.groups) := by
  intro chs
  induction chs with
  | nil =>
    intro i st h1 _ h3 h4
    exact ⟨st, rfl, h1, h3, h4, fun _ => rfl, fun _ => id⟩
  | cons ch chs ih =>
    intro i st h1 h2 h3 h4
    obtain ⟨st1, hst1, hl1, hwf1, hne1, hglen1, hhb1, _⟩ :=
      scanStep_wf gsep lastIdx st i ch n h1 (by simp at h2; omega) h3 h4
    obtain ⟨st2, hst2, hl2, hwf2, hne2, hglen2, hhb2⟩ := ih (i+1) st1 hl1
      (by simp at h2; omega) hwf1 hne1
    refine ⟨st2, ?_, hl2, hwf2, hne2, ?_, ?_⟩
    · rw [scanGo, hst1]
      exact hst2
    · intro hn
      rw [hglen2 hn, hglen1 hn]
    · intro hn hhb
      exact hhb2 hn (hhb1 hn hhb)

/-- `heatmapScan` succeeds on a non-empty target and yields well-formed
state; with no separator the single initial group survives and holds at
least one word boundary. -/
theorem heatmapScan_wf (s : List Nat) (gsep : Option Nat) (h : s ≠ []) :
    ∃ st, heatmapScan s gsep = some st ∧ st.scores.length = s.length ∧
      (∀ g ∈ st.groups, GroupWF s.length g) ∧ st.groups ≠ []
      ∧ (gsep = none → ∃ g, st.groups = [g] ∧ g.bounds ≠ []) := by
  cases s with
  | nil => exact absurd rfl h
  | cons c cs =>
    obtain ⟨sc0, hsc0, hsc0len⟩ := setIdx_some_of_lt
      (List.replicate (c :: cs).length (-35)) ((c :: cs).length - 1) 1 (by simp)
    have hwf0 : ∀ g ∈ ([⟨-1, 0, []⟩] : List HGroup), GroupWF (c :: cs).length g := by
      intro g hg
      rcases List.mem_cons.1 hg with h1 | h1
      · subst h1
        refine ⟨?_, ?_, ?_⟩
        · show (-1 : Int) ≤ (-1 : Int)
          omega
        · show (-1 : Int) < ((c :: cs).length : Int)
          have : 0 < (c :: cs).length := by simp
          omega
        · intro b hb
          cases hb
      · cases h1
    obtain ⟨st1, hst1, hl1, hwf1, hne1, hglen1, _, hhb1⟩ :=
      scanStep_wf gsep ((c :: cs).length - 1) ⟨sc0, [⟨-1, 0, []⟩], none, 0⟩ 0 c
        (c :: cs).length (by simpa using hsc0len) (by simp) hwf0 (by simp)
    obtain ⟨st2, hst2, hl2, hwf2, hne2, hglen2, hhb2⟩ :=
      scanGo_wf gsep ((c :: cs).length - 1) (c :: cs).length cs 1 st1 hl1
        (by simp; omega) hwf1 hne1
    refine ⟨st2, ?_, hl2, hwf2, hne2, ?_⟩
    · simp only [heatmapScan, hsc0, scanGo, hst1]
      exact hst2
    · intro hn
      have hlen2 : st2.groups.length = 1 := by
        rw [hglen2 hn, hglen1 hn]
        rfl
      have hhb : headBoundsNE st2.groups := hhb2 hn (hhb1 hn rfl)
      cases hgl : st2.groups with
      | nil => rw [hgl] at hlen2; cases hlen2
      | cons g gs =>
        rw [hgl] at hlen2
        simp at hlen2
        rw [hgl] at hhb
        refine ⟨g, ?_, hhb⟩
        rw [hlen2]

/-- Claim C8 counterexample: on the empty target `get_heatmap_str` is not
total: the Rust code computes `str_len - 1` (underflow) and applies the
final-char bonus out of range, a panic modelled by `none`. -/
theorem c8_counterexample :
    get_heatmap_str [] none = none ∧ get_heatmap_str [] (some 47) = none := by
  exact ⟨rfl, rfl⟩

/-- Claim C8 (amended): for every NON-EMPTY target and any group
separator, `get_heatmap_str` succeeds, never indexes out of range (every
internal update is the in-range `setIdx`), and its output has exactly one
score per target code point; for the empty target it panics. -/
theorem c8_heatmap_total (s : List Nat) (gsep : Option Nat) (h : s ≠ []) :
    ∃ v, get_heatmap_str s gsep = some v ∧ v.length = s.length := by
  obtain ⟨st, hscan, hlen, hwf, hne, _⟩ := heatmapScan_wf s gsep h
  obtain ⟨sc1, hsc1, hsc1len⟩ :
      ∃ l2, (if ((st.groups.length : Int) - 1) ≠ 0 then
        inc_vec st.scores ((st.groups.length : Int) * (-2)) 0 (s.length : Int)
        else some st.scores) = some l2 ∧ l2.length = s.length := by
    by_cases hc : ((st.groups.length : Int) - 1) ≠ 0
    · rw [if_pos hc]
      obtain ⟨l2, h1, h2⟩ := inc_vec_some st.scores ((st.groups.length : Int) * (-2)) 0
        (s.length : Int) (by omega) (by omega)
      exact ⟨l2, h1, h2.trans hlen⟩
    · rw [if_neg hc]
      exact ⟨st.scores, rfl, hlen⟩
  obtain ⟨st2, hst2, hst2len⟩ := groupsGo_some s.length ((st.groups.length : Int) - 1)
    st.groups ⟨sc1, (st.groups.length : Int) - 1, none, false⟩ hsc1len hwf
    (by intro v hv; cases hv)
  refine ⟨st2.scores, ?_, hst2len⟩
  simp only [get_heatmap_str, hscan, hsc1, hst2]

/-- Witness for C8 (amended) at target "a". -/
theorem c8_witness :
    ∃ v, get_heatmap_str [97] none = some v ∧ v.length = ([97] : List Nat).length :=
  c8_heatmap_total [97] none (by decide)

/-- Claim C10: `score` builds its heatmap with no group separator, so the
scan produces exactly one group, the multi-group `-2 × group_count`
penalty is skipped and only the basepath branch (with zero separator
boosts) is ever taken: `get_heatmap_str s none` coincides with the
single-group score view, while a supplied separator can change the
result. -/
theorem c10_score_no_separator :
    (∀ s : List Nat, s ≠ [] → ∀ st, heatmapScan s none = some st → st.groups.length = 1)
    ∧ (∀ s : List Nat, get_heatmap_str s none = get_heatmap_str_score_view s)
    ∧ get_heatmap_str [97, 47, 98] (some 47) ≠ get_heatmap_str [97, 47, 98] none := by
  refine ⟨?_, ?_, by decide⟩
  · intro s hs st hstep
    obtain ⟨st', hscan', _, _, _, hsingle⟩ := heatmapScan_wf s none hs
    rw [hstep] at hscan'
    cases hscan'
    obtain ⟨g, hg, _⟩ := hsingle rfl
    rw [hg]
    rfl
  · intro s
    by_cases hs : s = []
    · subst hs
      rfl
    · obtain ⟨st, hscan, hlen, hwf, hne, hsingle⟩ := heatmapScan_wf s none hs
      obtain ⟨g, hg, hgb⟩ := hsingle rfl
      have hbne : (g.bounds.length != 0) = true := by
        simp only [bne_iff_ne, ne_eq, List.length_eq_zero]
        exact hgb
      have hnum : ((35 : Int) + (if (0 : Int) > 1 then (0 : Int) - 1 else 0)) + -g.wc
          = 35 + -g.wc := by
        norm_num
      simp only [get_heatmap_str, get_heatmap_str_score_view, hscan, hg,
        List.length_singleton, Nat.cast_one]
      norm_num
      simp only [groupsGo, groupStep, hbne, Bool.not_false, Bool.and_true, if_pos,
        Option.getD_none, List.length_nil]
      simp only [hnum]
      cases hiv : inc_vec st.scores (35 + -g.wc) (g.start + 1) (s.length : Int) with
      | none => rfl
      | some sc1 =>
        dsimp only
        cases hwl : wordLoop sc1 g.bounds (s.length : Int) ((g.bounds.length : Int) - 1) with
        | none => rfl
        | some sc2 => rfl

/-- Witness for C10 at target "a" (and the scan state it produces). -/
theorem c10_witness :
    (⟨[-34], [⟨-1, 1, [0]⟩], none, 1⟩ : ScanSt).groups.length = 1 :=
  c10_score_no_separator.1 [97] (by decide) ⟨[-34], [⟨-1, 1, [0]⟩], none, 1⟩ (by decide)

/-! ### Closed forms on the all-`'a'` target (for the sentinel analysis) -/

theorem replicate_getD_97 (n i : Nat) (hi : i < n) :
    (List.replicate n 97).getD i 0 = 97 := by
  rw [List.getD_eq_getElem?_getD, List.getElem?_replicate, if_pos hi]
  rfl

theorem getHashAux_replicate (n : Nat) :
    ∀ (i : Nat) (m : Nat → List Nat), i ≤ n →
      getHashAux (List.replicate n 97) i m 97 = List.range i ++ m 97 := by
  intro i
  induction i with
  | zero => intro m _; simp [getHashAux]
  | succ i ih =>
    intro m hle
    have hch : (List.replicate n 97).getD i 0 = 97 := replicate_getD_97 n i (by omega)
    have hcap : capital (some 97) = false := by decide
    rw [getHashAux_succ, downKey, hch, hcap]
    rw [if_neg (by simp), if_neg (by simp)]
    rw [ih _ (by omega)]
    simp [hashInsertFront, List.range_succ]

theorem get_hash_replicate (n : Nat) :
    get_hash_for_string (List.replicate n 97) 97 = List.range n := by
  unfold get_hash_for_string
  rw [List.length_replicate, getHashAux_replicate n n _ le_rfl]
  simp

theorem scanStep_repl_first (n : Nat) (sc : List Int) (hn : 2 ≤ n) :
    scanStep none (n-1) ⟨sc, [⟨-1, 0, []⟩], none, 0⟩ 0 97
      = some ⟨sc, [⟨-1, 0, [0]⟩], some 97, 1⟩ := by
  have hb : boundary none (some 97) = true := by decide
  have hw : (!word (none : Option Nat) && word (some 97)) = true := by decide
  have hn1 : ¬ (0 = n - 1) := by omega
  simp only [scanStep]
  norm_num [hb, hw, updHead, hn1]
  simp

theorem scanStep_repl_mid (n : Nat) (sc : List Int) (i : Nat) (hi : i < n - 1) :
    scanStep none (n-1) ⟨sc, [⟨-1, 0, [0]⟩], some 97, 1⟩ i 97
      = some ⟨sc, [⟨-1, 0, [0]⟩], some 97, 1⟩ := by
  have hb : boundary (some 97) (some 97) = false := by decide
  have hw : (!word (some 97) && word (some 97)) = false := by decide
  have hn1 : ¬ (i = n - 1) := by omega
  simp only [scanStep]
  norm_num [hb, hw, hn1]
  simp [updHead]

theorem scanStep_repl_last (n : Nat) (sc : List Int) (hn : 2 ≤ n) :
    scanStep none (n-1) ⟨sc, [⟨-1, 0, [0]⟩], some 97, 1⟩ (n-1) 97
      = some ⟨sc, [⟨-1, 1, [0]⟩], some 97, 1⟩ := by
  have hb : boundary (some 97) (some 97) = false := by decide
  have hw : (!word (some 97) && word (some 97)) = false := by decide
  simp only [scanStep]
  norm_num [hb, hw, updHead]
  simp

theorem scanGo_repl (n : Nat) (sc : List Int) :
    ∀ (k i : Nat), 1 ≤ i → 1 ≤ k → i + k = n →
      scanGo none (n-1) (List.replicate k 97) i ⟨sc, [⟨-1, 0, [0]⟩], some 97, 1⟩
        = some ⟨sc, [⟨-1, 1, [0]⟩], some 97, 1⟩ := by
  intro k
  induction k with
  | zero => intro i _ hk _; omega
  | succ k ih =>
    intro i hi _ hik
    rw [List.replicate_succ, scanGo]
    by_cases hk0 : k = 0
    · subst hk0
      have hi' : i = n - 1 := by omega
      rw [hi', scanStep_repl_last n sc (by omega)]
      rfl
    · rw [scanStep_repl_mid n sc i (by omega)]
      exact ih (i+1) (by omega) (by omega) (by omega)

theorem heatmapScan_repl (n : Nat) (sc0 : List Int) (hn : 2 ≤ n)
    (h0 : setIdx (List.replicate n (-35)) (n-1) 1 = some sc0) :
    heatmapScan (List.replicate n 97) none
      = some ⟨sc0, [⟨-1, 1, [0]⟩], some 97, 1⟩ := by
  have hrep : List.replicate n 97 = 97 :: List.replicate (n-1) 97 := by
    conv_lhs => rw [show n = (n-1)+1 by omega]
    rw [List.replicate_succ]
  simp only [heatmapScan, List.length_replicate, h0]
  rw [hrep, scanGo, scanStep_repl_first n sc0 hn]
  exact scanGo_repl n sc0 (n-1) 1 le_rfl (by omega) (by omega)

theorem penaltyGo_getD (wi : Int) :
    ∀ (fuel : Nat) (l l2 : List Int) (pos : Nat) (chI : Int),
      penaltyGo wi l pos chI fuel = some l2 →
      ∀ j, l2.getD j 0 = l.getD j 0 +
        (if pos ≤ j ∧ j < pos + fuel then -3 * wi - (chI + ((j : Int) - (pos : Int))) else 0) := by
  intro fuel
  induction fuel with
  | zero =>
    intro l l2 pos chI h j
    cases h
    simp
  | succ fuel ih =>
    intro l l2 pos chI h j
    rw [penaltyGo] at h
    cases hset : setIdx l pos (-3 * wi - chI) with
    | none => rw [hset] at h; cases h
    | some l1 =>
      rw [hset] at h
      have h1 := setIdx_getD l l1 pos (-3 * wi - chI) hset j
      have h2 := ih l1 l2 (pos + 1) (chI + 1) h j
      rw [h2, h1]
      split_ifs <;> push_cast <;> omega

theorem heat_replicate (n : Nat) (hn : 2 ≤ n) :
    ∃ H, get_heatmap_str (List.replicate n 97) none = some H ∧
      H.length = n ∧ ∀ j, j < n → H.getD j 0 = heatAt n j := by
  obtain ⟨sc0, hsc0, hlen0⟩ := setIdx_some_of_lt (List.replicate n (-35)) (n-1) 1
    (by simp; omega)
  have hlen0' : sc0.length = n := by rw [hlen0]; simp
  have hscan := heatmapScan_repl n sc0 hn hsc0
  have hg0 : ∀ j, j < n → sc0.getD j 0 = -35 + (if j = n-1 then 1 else 0) := by
    intro j hj
    rw [setIdx_getD _ _ _ _ hsc0 j]
    have hr : (List.replicate n (-35 : Int)).getD j 0 = -35 := by
      rw [List.getD_eq_getElem?_getD, List.getElem?_replicate, if_pos hj]
      rfl
    rw [hr]
  obtain ⟨sc1, hsc1, hlen1⟩ := inc_vec_some sc0 34 0 (n : Int) le_rfl (by rw [hlen0'])
  have hg1 : ∀ j, j < n → sc1.getD j 0 = sc0.getD j 0 + 34 := by
    intro j hj
    rw [inc_vec_getD sc0 sc1 34 0 (n : Int) le_rfl hsc1 j, if_pos (by omega)]
  obtain ⟨sc2, hsc2, hlen2⟩ := setIdx_some_of_lt sc1 0 85 (by omega)
  have hg2 : ∀ j, j < n → sc2.getD j 0 = sc1.getD j 0 + (if j = 0 then 85 else 0) := by
    intro j _
    exact setIdx_getD _ _ _ _ hsc2 j
  obtain ⟨sc3, hsc3, hlen3⟩ := penaltyWalk_some sc2 0 (n : Int) 0 (by omega)
  have hg3 : ∀ j, j < n → sc3.getD j 0 = sc2.getD j 0 + (-(j : Int)) := by
    intro j hj
    rw [penaltyWalk] at hsc3
    have hfuel : (((n : Int) - ((0 : Nat) : Int)).toNat) = n := by omega
    rw [hfuel] at hsc3
    rw [penaltyGo_getD 0 n sc2 sc3 0 0 hsc3 j, if_pos (by omega)]
    push_cast
    ring
  refine ⟨sc3, ?_, by omega, ?_⟩
  · simp only [get_heatmap_str, hscan]
    norm_num
    simp only [groupsGo, groupStep]
    norm_num
    simp only [hsc1, wordLoop, hsc2, hsc3]
  · intro j hj
    rw [hg3 j hj, hg2 j hj, hg1 j hj, hg0 j hj, heatAt]
    split_ifs <;> push_cast <;> omega

theorem mem_range'_iff (m s k : Nat) : m ∈ List.range' s k ↔ s ≤ m ∧ m < s + k := by
  constructor
  · intro h
    obtain ⟨i, hi, rfl⟩ := List.mem_range'.1 h
    omega
  · intro h
    exact List.mem_range'.2 ⟨m - s, by omega, by omega⟩

theorem bigger_sublist_range (n v : Nat) :
    bigger_sublist (List.range n) (some v) = List.range' (v+1) (n-v-1) := by
  induction n with
  | zero => simp [bigger_sublist]
  | succ n ih =>
    simp only [bigger_sublist] at ih ⊢
    rw [List.range_succ, List.filter_append, ih]
    by_cases h : v < n
    · have hc := @List.range'_concat 1 (v+1) (n-v-1)
      simp only [one_mul] at hc
      rw [List.filter_cons, if_pos (by simpa using h), List.filter_nil]
      have h1 : (n+1) - v - 1 = (n - v - 1) + 1 := by omega
      rw [h1, hc]
      have h2 : v + 1 + (n - v - 1) = n := by omega
      rw [h2]
    · rw [List.filter_cons, if_neg (by simpa using h), List.filter_nil, List.append_nil]
      have h1 : (n+1) - v - 1 = n - v - 1 := by omega
      rw [h1]

theorem fbmFold_all_nil (hm : List Int) (f : Nat → List Result) :
    ∀ (idxs : List Nat) (acc : Int × List Result),
      (∀ idx ∈ idxs, f idx = []) → fbmFold hm f idxs acc = acc := by
  intro idxs
  induction idxs with
  | nil => intro acc _; rfl
  | cons i is ih =>
    intro acc hall
    rw [fbmFold, hall i (by simp)]
    exact ih _ (fun idx h => hall idx (by simp [h]))

theorem fbmGo_repl_nonviable (si : Nat → List Nat) (hm : List Int) (n : Nat)
    (hsi : si 97 = List.range n) :
    ∀ (m : Nat), 1 ≤ m → ∀ (v : Nat), n - 1 - v < m →
      fbmGo si hm (List.replicate m 97) (some v) = [] := by
  intro m
  induction m with
  | zero => omega
  | succ m ih =>
    intro _ v hv
    by_cases hm0 : m = 0
    · subst hm0
      rw [show List.replicate 1 97 = [97] from rfl, fbmGo_single, hsi, bigger_sublist_range]
      have h0 : n - v - 1 = 0 := by omega
      rw [h0]
      rfl
    · obtain ⟨k, rfl⟩ : ∃ k, m = k + 1 := ⟨m - 1, by omega⟩
      rw [show List.replicate (k+1+1) 97 = 97 :: 97 :: List.replicate k 97 from by
        simp [List.replicate_succ]]
      rw [fbmGo_cons₂, hsi, bigger_sublist_range]
      rw [fbmFold_all_nil hm _ _ _ ?_]
      · intro idx hidx
        rw [mem_range'_iff] at hidx
        rw [show (97 :: List.replicate k 97) = List.replicate (k+1) 97 from
          (List.replicate_succ _ _).symm]
        exact ih (by omega) idx (by omega)

theorem fbmGo_repl_good (si : Nat → List Nat) (hm : List Int) (n : Nat)
    (hsi : si 97 = List.range n) (hn : 2 ≤ n)
    (hheat : ∀ j, j < n → hm.getD j 0 = heatAt n j) :
    ∀ (m : Nat), 1 ≤ m → m ≤ n - 1 →
      (∀ m', 1 ≤ m' → m' ≤ m → -2147483648 < T n m') →
      fbmGo si hm (List.replicate m 97) (some (n-1-m))
        = [⟨List.range' (n-m) m, T n m, (m : Int) - 1⟩] := by
  intro m
  induction m with
  | zero => omega
  | succ m ih =>
    intro _ hmn hThr
    by_cases hm0 : m = 0
    · subst hm0
      rw [show List.replicate 1 97 = [97] from rfl, fbmGo_single, hsi, bigger_sublist_range]
      have h1 : n - (n-1-1) - 1 = 1 := by omega
      have h2 : n - 1 - 1 + 1 = n - 1 := by omega
      rw [h1, h2, List.range'_one, List.map_singleton]
      have hh : hm.getD (n-1) 0 = 1 - (n : Int) := by
        rw [hheat (n-1) (by omega), heatAt, if_neg (by omega), if_pos rfl]
      rw [hh]
      have hT1 : T n 1 = 1 - (n : Int) := rfl
      rw [show n - 1 = n - 1 + 0 from rfl]
      norm_num [hT1, List.range'_one]
    · obtain ⟨k, rfl⟩ : ∃ k, m = k + 1 := ⟨m - 1, by omega⟩
      rw [show List.replicate (k+1+1) 97 = 97 :: 97 :: List.replicate k 97 from by
        simp [List.replicate_succ]]
      rw [fbmGo_cons₂, hsi, bigger_sublist_range]
      have hidx : n - 1 - (k+1+1) + 1 = n - k - 2 := by omega
      have hlen : n - (n - 1 - (k+1+1)) - 1 = k + 2 := by omega
      rw [hidx, hlen, List.range'_succ]
      simp only [fbmFold]
      have hf1 : fbmGo si hm (97 :: List.replicate k 97) (some (n-k-2))
          = [⟨List.range' (n-(k+1)) (k+1), T n (k+1), ((k+1 : Nat) : Int) - 1⟩] := by
        rw [show (97 :: List.replicate k 97) = List.replicate (k+1) 97 from
          (List.replicate_succ _ _).symm]
        rw [show n-k-2 = n-1-(k+1) from by omega]
        exact ih (by omega) (by omega) (fun m' h1 h2 => hThr m' h1 (by omega))
      rw [hf1]
      have hhead : (List.range' (n-(k+1)) (k+1)).headD 0 = n-k-2+1 := by
        rw [List.range'_succ, List.headD_cons]
        omega
      have htemp : fbmTemp hm (n-k-2)
          ⟨List.range' (n-(k+1)) (k+1), T n (k+1), ((k+1 : Nat) : Int) - 1⟩
          = T n (k+1+1) := by
        simp only [fbmTemp]
        rw [if_pos hhead]
        rw [hheat (n-k-2) (by omega)]
        rw [show T n (k+1+1) = T n (k+1) + heatAt n (n-(k+2)) + min (k : Int) 3 * 15 + 60
          from rfl]
        rw [show n - (k+2) = n - k - 2 from by omega]
        have hmin : ((k+1 : Nat) : Int) - 1 = (k : Int) := by push_cast; ring
        rw [hmin]
      have hind : (n-k-2) :: List.range' (n-(k+1)) (k+1) = List.range' (n-(k+1+1)) (k+1+1) := by
        conv_rhs => rw [List.range'_succ]
        have e1 : n - (k+1+1) = n - k - 2 := by omega
        rw [e1]
        have e3 : n - k - 2 + 1 = n - (k+1) := by omega
        rw [e3]
      have htail : ((k+1 : Nat) : Int) - 1 + 1 = ((k+1+1 : Nat) : Int) - 1 := by
        push_cast
        ring
      have hstep : fbmStep hm (n-k-2)
          [⟨List.range' (n-(k+1)) (k+1), T n (k+1), ((k+1 : Nat) : Int) - 1⟩]
          (-2147483648, [])
          = (T n (k+1+1),
             [⟨List.range' (n-(k+1+1)) (k+1+1), T n (k+1+1), ((k+1+1 : Nat) : Int) - 1⟩]) := by
        simp only [fbmStep, htemp]
        rw [if_pos (hThr (k+1+1) (by omega) le_rfl)]
        simp only [fbmStep, fbmPush, fbmTemp]
        rw [if_pos hhead, if_pos hhead]
        rw [hheat (n-k-2) (by omega)]
        rw [hind, htail]
        have hsc : T n (k+1) + heatAt n (n-k-2) + min (((k+1 : Nat) : Int) - 1) 3 * 15 + 60
            = T n (k+1+1) := by
          rw [show T n (k+1+1) = T n (k+1) + heatAt n (n-(k+2)) + min (k : Int) 3 * 15 + 60
            from rfl]
          rw [show n - (k+2) = n - k - 2 from by omega]
          have hmin : ((k+1 : Nat) : Int) - 1 = (k : Int) := by push_cast; ring
          rw [hmin]
        rw [hsc]
      rw [hstep]
      have hf2 : fbmGo si hm (97 :: List.replicate k 97) (some (n-k-2+1)) = [] := by
        rw [show (97 :: List.replicate k 97) = List.replicate (k+1) 97 from
          (List.replicate_succ _ _).symm]
        exact fbmGo_repl_nonviable si hm n hsi (k+1) (by omega) _ (by omega)
      rw [hf2]
      simp only [fbmStep]
      have hnil3 : ∀ idx ∈ List.range' (n-k-2+1+1) k,
          fbmGo si hm (97 :: List.replicate k 97) (some idx) = [] := by
        intro idx hidx
        rw [mem_range'_iff] at hidx
        rw [show (97 :: List.replicate k 97) = List.replicate (k+1) 97 from
          (List.replicate_succ _ _).symm]
        exact fbmGo_repl_nonviable si hm n hsi (k+1) (by omega) idx (by omega)
      rw [fbmFold_all_nil hm _ _ _ hnil3]

theorem T_closed (n : Nat) (hn7 : 7 ≤ n) :
    ∀ (m : Nat), 5 ≤ m → m ≤ n - 1 →
      2 * T n m = (m : Int)^2 + (209 - 2*(n : Int))*(m : Int) - 388 := by
  intro m hm5
  induction m, hm5 using Nat.le_induction with
  | base =>
    intro _
    have e1 : T n 1 = 1 - (n : Int) := rfl
    have e2 : T n 2 = T n 1 + heatAt n (n-2) + min ((0 : Nat) : Int) 3 * 15 + 60 := rfl
    have e3 : T n 3 = T n 2 + heatAt n (n-3) + min ((1 : Nat) : Int) 3 * 15 + 60 := rfl
    have e4 : T n 4 = T n 3 + heatAt n (n-4) + min ((2 : Nat) : Int) 3 * 15 + 60 := rfl
    have h2 : heatAt n (n-2) = -1 - ((n : Int) - 2) := by
      rw [heatAt, if_neg (by omega), if_neg (by omega)]
      omega
    have h3 : heatAt n (n-3) = -1 - ((n : Int) - 3) := by
      rw [heatAt, if_neg (by omega), if_neg (by omega)]
      omega
    have h4 : heatAt n (n-4) = -1 - ((n : Int) - 4) := by
      rw [heatAt, if_neg (by omega), if_neg (by omega)]
      omega
    have h5 : heatAt n (n-5) = -1 - ((n : Int) - 5) := by
      rw [heatAt, if_neg (by omega), if_neg (by omega)]
      omega
    rw [show T n 5 = T n 4 + heatAt n (n-5) + min ((3 : Nat) : Int) 3 * 15 + 60 from rfl]
    rw [e4, e3, e2, e1, h2, h3, h4, h5]
    norm_num
    ring
  | succ m hm5 ih =>
    intro hmn
    obtain ⟨j, rfl⟩ : ∃ j, m = j + 5 := ⟨m - 5, by omega⟩
    rw [show T n (j+5+1) = T n (j+5) + heatAt n (n-(j+5+1))
        + min ((j+4 : Nat) : Int) 3 * 15 + 60 from rfl]
    rw [show heatAt n (n-(j+5+1)) = -1 - ((n : Int) - (j+6)) from by
      rw [heatAt, if_neg (by omega), if_neg (by omega)]
      omega]
    rw [min_eq_right (by push_cast; omega)]
    have hih := ih (by omega)
    push_cast at hih ⊢
    linear_combination hih

theorem T_above_sentinel_below_32838 (m' : Nat) (h1 : 1 ≤ m') (h2 : m' < 32838) :
    -2147483648 < T 81920 m' := by
  by_cases h5 : m' < 5
  · interval_cases m' <;> · simp only [T, heatAt]; norm_num
  · have h := T_closed 81920 (by norm_num) m' (by omega) (by omega)
    have hB : (209 - 2 * ((81920 : Nat) : Int)) = -163631 := by norm_num
    rw [hB] at h
    have key : (0 : Int) ≤ (32837 - (m' : Int)) * (130794 - (m' : Int)) :=
      mul_nonneg (by omega) (by omega)
    nlinarith [h, key]

theorem matchable_replicate (n : Nat) :
    Matchable (List.replicate n 97) (List.replicate n 97) := by
  refine ⟨List.range n, (List.pairwise_lt_range n).chain', ?_⟩
  rw [List.forall₂_iff_get]
  refine ⟨by simp, ?_⟩
  intro i h₁ h₂
  have hi : i < n := by simpa using h₂
  have hget1 : (List.replicate n 97).get ⟨i, h₁⟩ = 97 := List.get_replicate 97 _
  have hget2 : (List.range n).get ⟨i, h₂⟩ = i := List.get_range _ _
  rw [hget1, hget2]
  refine ⟨by simpa using hi, Or.inl ?_⟩
  exact replicate_getD_97 n i hi

/-- The absence direction of `score` in the embedding: an empty target,
an empty query, or a query with no in-order occurrence under the case
rules always yields `none` — absence of a result, not an error. -/
theorem score_none_of_no_match (s q : List Nat)
    (h : s = [] ∨ q = [] ∨ ¬ Matchable s q) : score s q = none := by
  rcases h with rfl | rfl | hnm
  · rfl
  · simp [score]
  · rcases hr : score s q with _ | r
    · rfl
    · exfalso
      apply hnm
      obtain ⟨hm, base, rest, hhm, hfb, hind, _, _⟩ := score_some_elim s q r hr
      have hbase : base ∈ fbmGo (get_hash_for_string s) hm q none := by
        rw [hfb]
        exact List.mem_cons_self _ _
      have hs := fbmGo_spec (get_hash_for_string s) hm q none base hbase
      exact ⟨base.indices, hs.2.1,
        hs.1.imp (fun c p hcp => mem_get_hash_for_string s c p hcp)⟩

/-- Concrete instance of the absence direction at target "a", query "b":
the query character has no candidate position, so the result is `none`. -/
theorem score_none_of_no_match_example : score [97] [98] = none := by
  refine score_none_of_no_match [97] [98] (Or.inr (Or.inr ?_))
  rintro ⟨ps, hch, hf⟩
  cases hf with
  | cons hhead hrest =>
    rename_i p ps'
    have hp0 : p = 0 := by
      have := hhead.1
      simp at this
      omega
    rw [hp0] at hhead
    have : charMatch 98 (([97] : List Nat).getD 0 0) := hhead.2
    revert this
    decide

/-- Claim C9 (code bug): on the matchable all-`'a'` target and query of
length 81920 the exact score accumulation of `find_best_match` leaves the
`i32` range, so the claim's characterisation of `None` cannot hold as
stated against the code.  Concretely: the heatmap and the hash never
leave `i32`/`u32` range on this input, the search's unique viable
sub-chain of the last 32837 characters has the representable exact score
`-2147441483`, and the very next addition the code performs — extending
it by `heatmap[49082] = -49083` (both operands representable) — has
exact value `-2147490566`, below `i32::MIN = -2147483648`; the full
extension score (`fbmTemp`, the code's `temp_score`) is `-2147490461`,
also below `i32::MIN`.  The Rust `i32` addition at this site therefore
overflows: it panics in a debug build (an error on a matchable input)
and wraps in a release build (a corrupted score).  The embedding, exact
up to this first out-of-range sum, certifies the operands and the
overflow. -/
theorem c9_i32_overflow :
    ∃ H r,
      get_heatmap_str (List.replicate 81920 97) none = some H ∧
      fbmGo (get_hash_for_string (List.replicate 81920 97)) H
        (List.replicate 32837 97) (some 49082) = [r] ∧
      Matchable (List.replicate 81920 97) (List.replicate 81920 97) ∧
      (-2147483648 ≤ r.score ∧ r.score ≤ 2147483647) ∧
      (-2147483648 ≤ H.getD 49082 0 ∧ H.getD 49082 0 ≤ 2147483647) ∧
      r.score + H.getD 49082 0 < -2147483648 ∧
      fbmTemp H 49082 r < -2147483648 := by
  obtain ⟨H, hH, hHlen, hHpoint⟩ := heat_replicate 81920 (by norm_num)
  have hgood := fbmGo_repl_good (get_hash_for_string (List.replicate 81920 97)) H 81920
    (get_hash_replicate 81920) (by norm_num) hHpoint 32837 (by norm_num) (by norm_num)
    (fun m' hm1 hm2 => T_above_sentinel_below_32838 m' hm1 (by omega))
  rw [show (81920 - 1 - 32837 : Nat) = 49082 from by norm_num] at hgood
  rw [show (81920 - 32837 : Nat) = 49083 from by norm_num] at hgood
  have hT37 := T_closed 81920 (by norm_num) 32837 (by norm_num) (by norm_num)
  norm_num at hT37
  have hHv : H.getD 49082 0 = -49083 := by
    rw [hHpoint 49082 (by norm_num), heatAt, if_neg (by norm_num), if_neg (by norm_num)]
    norm_num
  refine ⟨H, ⟨List.range' 49083 32837, T 81920 32837, ((32837 : Nat) : Int) - 1⟩,
    hH, hgood, matchable_replicate 81920, ⟨?_, ?_⟩, ⟨?_, ?_⟩, ?_, ?_⟩
  · show (-2147483648 : Int) ≤ T 81920 32837
    omega
  · show T 81920 32837 ≤ (2147483647 : Int)
    omega
  · rw [hHv]
    norm_num
  · rw [hHv]
    norm_num
  · show T 81920 32837 + H.getD 49082 0 < -2147483648
    rw [hHv]
    omega
  · show fbmTemp H 49082 ⟨List.range' 49083 32837, T 81920 32837,
      ((32837 : Nat) : Int) - 1⟩ < -2147483648
    have hhead : (List.range' 49083 32837).headD 0 = 49083 := by
      rw [show (32837 : Nat) = 32836 + 1 from by norm_num, List.range'_succ, List.headD_cons]
    simp only [fbmTemp]
    rw [if_pos (by rw [hhead])]
    rw [hHv]
    rw [show min (((32837 : Nat) : Int) - 1) 3 = 3 from min_eq_right (by norm_num)]
    omega

end Flx
